import Mathlib

/-!
Verification of the message pacing and fragmentation controller of the
mshtbot repository (src/examples/llmbot.py and src/examples/testbot.py).

The fragmenter in llmbot.py delegates to Python's standard library call
  textwrap.wrap(msg, width=payld_sz, subsequent_indent="…", break_long_words=False)
with the remaining TextWrapper options at their defaults.  llmbot.py
declares "# coding: unicode_escape", under which the three UTF-8 bytes of
the "…" literal decode to the three characters U+00E2 U+0080 U+00A6, so
the subsequent_indent the program passes is that 3-character string
(see indentMarker below)
(expand_tabs=True with tabsize 8, replace_whitespace=True,
drop_whitespace=True, break_on_hyphens=True, fix_sentence_endings=False,
max_lines=None).  The definitions below are a faithful shallow embedding of
that call, translated from CPython's textwrap implementation
(_munge_whitespace, _split with wordsep_re, _wrap_chunks, _handle_long_word),
specialised to the option values the source uses.  Character classes that
CPython takes from the regex module (\w, the letter class [^\d\W]) are
modelled at ASCII precision (alphanumerics and underscore).
-/

set_option maxRecDepth 20000

/-- Whitespace class used by textwrap's wordsep regex and by
_munge_whitespace: the string _whitespace = tab, newline, vertical tab,
form feed, carriage return, space. -/
def isWS (c : Char) : Bool :=
  c == '\t' || c == '\n' || c == '\x0b' || c == '\x0c' || c == '\r' || c == ' '

/-- Unicode whitespace as recognised by Python's str.strip(), which
_wrap_chunks uses (chunk.strip() == '') to decide whether a chunk is
droppable whitespace.  This is a strict superset of isWS. -/
def isUniWS (c : Char) : Bool :=
  isWS c || c == '\x1c' || c == '\x1d' || c == '\x1e' || c == '\x1f' ||
  c == '\u0085' || c == '\u00a0' || c == '\u1680' ||
  c == '\u2000' || c == '\u2001' || c == '\u2002' || c == '\u2003' ||
  c == '\u2004' || c == '\u2005' || c == '\u2006' || c == '\u2007' ||
  c == '\u2008' || c == '\u2009' || c == '\u200a' ||
  c == '\u2028' || c == '\u2029' || c == '\u202f' || c == '\u205f' ||
  c == '\u3000'

/-- Model of the regex word class \w at ASCII precision (alphanumeric or
underscore). -/
def isWordChar (c : Char) : Bool := c.isAlphanum || c == '_'

/-- Model of textwrap's letter class [^\d\W] (a word character that is not
a digit) at ASCII precision. -/
def isLetterChar (c : Char) : Bool := c.isAlpha || c == '_'

/-- Model of textwrap's word_punct class [\w!"'&.,?]. -/
def isWordPunct (c : Char) : Bool :=
  isWordChar c || c == '!' || c == '"' || c == '\'' || c == '&' ||
  c == '.' || c == ',' || c == '?'

/-- Python str.expandtabs(8), used by _munge_whitespace: a tab advances the
column to the next multiple of 8 and is replaced by that many spaces;
newline and carriage return reset the column. -/
def expandTabs (col : Nat) : List Char → List Char
  | [] => []
  | c :: r =>
    if c == '\t' then
      let pad := 8 - col % 8
      List.replicate pad ' ' ++ expandTabs (col + pad) r
    else if c == '\n' || c == '\r' then
      c :: expandTabs 0 r
    else
      c :: expandTabs (col + 1) r

/-- textwrap._munge_whitespace with the source's options: expand tabs, then
translate every character of the whitespace class to a space. -/
def munge (t : List Char) : List Char :=
  (expandTabs 0 t).map (fun c => if isWS c then ' ' else c)

/-- Lookahead of the hyphenated-word branch of wordsep_re at the position
just after a consumed hyphen: a letter, an optional hyphen, and a letter. -/
def hyphLookahead : List Char → Bool
  | c :: d :: rest =>
    isLetterChar c &&
      (isLetterChar d ||
        (d == '-' && match rest with
          | e :: _ => isLetterChar e
          | [] => false))
  | _ => false

/-- Lookbehind of the hyphenated-word branch of wordsep_re, applied to the
reversed text up to and including the consumed hyphen: either two letters
before the hyphen, or letter-hyphen-letter before the hyphen. -/
def hyphLookbehind : List Char → Bool
  | h :: a :: b :: rest =>
    h == '-' &&
      ((isLetterChar a && isLetterChar b) ||
        (isLetterChar a && b == '-' && match rest with
          | e :: _ => isLetterChar e
          | [] => false))
  | _ => false

/-- Lookahead (?=-{2,}\w) of the em-dash branches of wordsep_re: at least
two hyphens followed (immediately after the whole hyphen run) by a word
character. -/
def emDashAhead : List Char → Bool
  | c :: d :: rest =>
    c == '-' && d == '-' &&
      (match rest.dropWhile (fun x => x == '-') with
        | e :: _ => isWordChar e
        | [] => false)
  | _ => false

/-- A list on which emDashAhead holds starts with a hyphen. -/
theorem emDashAhead_head : ∀ (t : List Char), emDashAhead t = true →
    ∃ r, t = '-' :: r := by
  intro t h
  cases t with
  | nil => simp [emDashAhead] at h
  | cons c r =>
    cases r with
    | nil => simp [emDashAhead] at h
    | cons d r2 =>
      simp only [emDashAhead, Bool.and_eq_true, beq_iff_eq] at h
      exact ⟨d :: r2, by rw [h.1.1]⟩

/-- The lazy word branch nws+? of wordsep_re: having already consumed the
reversed characters acc (nonempty) of the current word chunk, extend one
character at a time, stopping (in the regex's alternative order) when a
hyphen can be consumed with the hyphenated-word lookaround, at whitespace
or end of text, or before an em-dash.  prevRev is the reversed text before
the chunk, visible to lookbehinds.  Returns the chunk and the rest. -/
def wordScan (prevRev : List Char) (acc : List Char) : List Char → List Char × List Char
  | [] => (acc.reverse, [])
  | c :: rest =>
    if c == '-' && hyphLookbehind (c :: (acc ++ prevRev)) && hyphLookahead rest then
      ((c :: acc).reverse, rest)
    else if isWS c then
      (acc.reverse, c :: rest)
    else if (match acc with
        | a :: _ => isWordPunct a
        | [] => false) && emDashAhead (c :: rest) then
      (acc.reverse, c :: rest)
    else
      wordScan prevRev (c :: acc) rest

/-- Length of the rest returned by wordScan is at most the input length. -/
theorem wordScan_rest_le (prevRev : List Char) :
    ∀ (t acc : List Char), (wordScan prevRev acc t).2.length ≤ t.length := by
  intro t
  induction t with
  | nil => intro acc; simp [wordScan]
  | cons c rest ih =>
    intro acc
    simp only [wordScan]
    split
    · simp
    · split
      · simp
      · split
        · simp
        · exact Nat.le_trans (ih _) (Nat.le_succ _)

/-- The chunk and rest returned by wordScan concatenate to the reversed
accumulator followed by the input. -/
theorem wordScan_append (prevRev : List Char) :
    ∀ (t acc : List Char),
      (wordScan prevRev acc t).1 ++ (wordScan prevRev acc t).2 = acc.reverse ++ t := by
  intro t
  induction t with
  | nil => intro acc; simp [wordScan]
  | cons c rest ih =>
    intro acc
    simp only [wordScan]
    split
    · simp
    · split
      · simp
      · split
        · simp
        · rw [ih (c :: acc)]; simp

/-- textwrap._split (the wordsep_re scan) on the munged text: produce the
list of chunks.  prevRev is the reversed already-consumed text (regex
lookbehinds may inspect it). -/
def splitGo (prevRev : List Char) (t : List Char) : List (List Char) :=
  match h : t with
  | [] => []
  | c :: rest =>
    if hw : isWS c then
      let run := t.takeWhile isWS
      run :: splitGo (run.reverse ++ prevRev) (t.dropWhile isWS)
    else if he : (match prevRev with
        | a :: _ => isWordPunct a
        | [] => false) && emDashAhead t then
      let run := t.takeWhile (fun x => x == '-')
      run :: splitGo (run.reverse ++ prevRev) (t.dropWhile (fun x => x == '-'))
    else
      let p := wordScan prevRev [c] rest
      p.1 :: splitGo (p.1.reverse ++ prevRev) p.2
  termination_by t.length
  decreasing_by
  · rw [h, List.dropWhile_cons, if_pos hw]
    exact Nat.lt_succ_of_le (List.dropWhile_sublist _).length_le
  · obtain ⟨r, hr⟩ := emDashAhead_head t (((Bool.and_eq_true _ _).mp he).2)
    have hlen : (c :: rest).length = r.length + 1 := by rw [← h, hr]; simp
    rw [hr, List.dropWhile_cons]
    simp only [beq_self_eq_true, if_true]
    rw [hlen]
    exact Nat.lt_succ_of_le (List.dropWhile_sublist _).length_le
  · exact Nat.lt_succ_of_le (wordScan_rest_le _ _ _)

/-- Fuel-indexed form of splitGo with the same body, structurally
recursive on the fuel so that the kernel can evaluate it; with fuel at
least the text length it coincides with splitGo (splitGoF_eq). -/
def splitGoF (fuel : Nat) (prevRev : List Char) (t : List Char) : List (List Char) :=
  match fuel with
  | 0 => []
  | fuel + 1 =>
    match t with
    | [] => []
    | c :: rest =>
      if isWS c then
        let run := t.takeWhile isWS
        run :: splitGoF fuel (run.reverse ++ prevRev) (t.dropWhile isWS)
      else if (match prevRev with
          | a :: _ => isWordPunct a
          | [] => false) && emDashAhead t then
        let run := t.takeWhile (fun x => x == '-')
        run :: splitGoF fuel (run.reverse ++ prevRev) (t.dropWhile (fun x => x == '-'))
      else
        let p := wordScan prevRev [c] rest
        p.1 :: splitGoF fuel (p.1.reverse ++ prevRev) p.2

/-- With enough fuel, splitGoF is splitGo. -/
theorem splitGoF_eq : ∀ (fuel : Nat) (t prevRev : List Char), t.length ≤ fuel →
    splitGoF fuel prevRev t = splitGo prevRev t := by
  intro fuel
  induction fuel with
  | zero =>
    intro t prevRev h
    have ht : t = [] := List.eq_nil_of_length_eq_zero (Nat.le_zero.mp h)
    subst ht
    simp [splitGoF, splitGo.eq_def]
  | succ fuel ih =>
    intro t prevRev h
    cases t with
    | nil => simp [splitGoF, splitGo.eq_def]
    | cons c rest =>
      rw [splitGo.eq_def]
      simp only [splitGoF]
      by_cases hw : isWS c
      · rw [if_pos hw, dif_pos hw]
        have hlen : ((c :: rest).dropWhile isWS).length ≤ fuel := by
          rw [List.dropWhile_cons, if_pos hw]
          exact Nat.le_trans (List.dropWhile_sublist _).length_le
            (Nat.le_of_succ_le_succ h)
        rw [ih _ _ hlen]
      · rw [if_neg hw, dif_neg hw]
        by_cases he : (match prevRev with
            | a :: _ => isWordPunct a
            | [] => false) && emDashAhead (c :: rest)
        · rw [if_pos he, dif_pos he]
          obtain ⟨r, hr⟩ := emDashAhead_head (c :: rest) (((Bool.and_eq_true _ _).mp he).2)
          have hlen : ((c :: rest).dropWhile (fun x => x == '-')).length ≤ fuel := by
            rw [hr, List.dropWhile_cons]
            simp only [beq_self_eq_true, if_true]
            have h2 : (c :: rest).length = r.length + 1 := by rw [hr]; simp
            have h3 : (r.dropWhile (fun x => x == '-')).length ≤ r.length :=
              (List.dropWhile_sublist _).length_le
            omega
          rw [ih _ _ hlen]
        · rw [if_neg he, dif_neg he]
          have hlen : (wordScan prevRev [c] rest).2.length ≤ fuel := by
            exact Nat.le_trans (wordScan_rest_le _ _ _) (Nat.le_of_succ_le_succ h)
          rw [ih _ _ hlen]

/-- textwrap._split_chunks of the source's TextWrapper. -/
def splitChunks (t : List Char) : List (List Char) := splitGoF t.length [] t

/-- splitChunks agrees with the recursion splitGo. -/
theorem splitChunks_eq (t : List Char) : splitChunks t = splitGo [] t :=
  splitGoF_eq t.length t [] (Nat.le_refl _)

/-- Sum of the lengths of a list of chunks. -/
def sumLens (l : List (List Char)) : Nat := (l.map List.length).sum

/-- The greedy inner loop of textwrap._wrap_chunks: accumulate chunks onto
the current line while the running length stays within the available
width; stop at the first chunk that does not fit. -/
def fitChunks (avail : Nat) (curLen : Nat) : List (List Char) → List (List Char) × List (List Char)
  | [] => ([], [])
  | c :: rest =>
    if curLen + c.length ≤ avail then
      let p := fitChunks avail (curLen + c.length) rest
      (c :: p.1, p.2)
    else
      ([], c :: rest)

/-- The two halves returned by fitChunks concatenate to the input. -/
theorem fitChunks_append (avail : Nat) :
    ∀ (l : List (List Char)) (cur : Nat),
      (fitChunks avail cur l).1 ++ (fitChunks avail cur l).2 = l := by
  intro l
  induction l with
  | nil => intro cur; simp [fitChunks]
  | cons c rest ih =>
    intro cur
    simp only [fitChunks]
    split
    · simp [ih]
    · simp

/-- If fitChunks takes nothing from a nonempty list, the head chunk does
not fit. -/
theorem fitChunks_nil_head (avail cur : Nat) (c : List Char) (rest : List (List Char)) :
    (fitChunks avail cur (c :: rest)).1 = [] → avail < cur + c.length := by
  intro h
  by_contra hlt
  simp only [fitChunks, if_pos (Nat.le_of_not_lt hlt)] at h
  exact List.cons_ne_nil _ _ h

/-- The running length plus the lengths of the chunks fitChunks takes stays
within the available width. -/
theorem fitChunks_sum (avail : Nat) :
    ∀ (l : List (List Char)) (cur : Nat), cur ≤ avail →
      cur + sumLens (fitChunks avail cur l).1 ≤ avail := by
  intro l
  induction l with
  | nil => intro cur h; simpa [fitChunks, sumLens]
  | cons c rest ih =>
    intro cur h
    simp only [fitChunks]
    split
    · rename_i hfit
      have := ih (cur + c.length) hfit
      simp only [sumLens, List.map_cons, List.sum_cons] at this ⊢
      omega
    · simpa [sumLens]

/-- If the whole list fits, fitChunks takes everything. -/
theorem fitChunks_all (avail : Nat) :
    ∀ (l : List (List Char)) (cur : Nat), cur + sumLens l ≤ avail →
      fitChunks avail cur l = (l, []) := by
  intro l
  induction l with
  | nil => intro cur _; simp [fitChunks]
  | cons c rest ih =>
    intro cur h
    simp only [sumLens, List.map_cons, List.sum_cons] at h
    have hc : cur + c.length ≤ avail := by omega
    have hr : (cur + c.length) + sumLens rest ≤ avail := by
      simp only [sumLens]; omega
    simp [fitChunks, if_pos hc, ih _ hr]


/-- Whether the head chunk is droppable whitespace (Python:
chunks[-1].strip() == '' on the reversed chunk stack). -/
def headUniWS : List (List Char) → Bool
  | c :: _ => c.all isUniWS
  | [] => false

/-- Whether the last chunk of the current line is droppable whitespace
(Python: cur_line[-1].strip() == ''). -/
def lastUniWS (l : List (List Char)) : Bool :=
  match l.getLast? with
  | some c => c.all isUniWS
  | none => false

/-- The leading whitespace drop of _wrap_chunks: once at least one line has
been emitted (first = false), a whitespace chunk at the head of the pending
chunks is deleted. -/
def dropLead (first : Bool) (chunks : List (List Char)) : List (List Char) :=
  if !first && headUniWS chunks then chunks.tail else chunks

/-- The break_long_words=False branch of _handle_long_word: if the greedy
pass took nothing and the next chunk is longer than the available width,
put that chunk alone on the line. -/
def popLong (avail : Nat) (p : List (List Char) × List (List Char)) :
    List (List Char) × List (List Char) :=
  match p.2 with
  | c :: rest2 => if p.1 = [] ∧ avail < c.length then (p.1 ++ [c], rest2) else p
  | [] => p

/-- The trailing whitespace drop of _wrap_chunks: a whitespace chunk at the
end of the assembled line is deleted. -/
def dropTrail (l : List (List Char)) : List (List Char) :=
  if lastUniWS l then l.dropLast else l

/-- One line step of textwrap._wrap_chunks, specialised to the source's
options (drop_whitespace=True, break_long_words=False, initial_indent="",
and the 3-character subsequent_indent that the source's unicode_escape
coding declaration produces, so continuation lines have width - 3
available).  Given whether no line has been emitted
yet (first), it drops a leading whitespace chunk (only once a line exists),
greedily fills the line, places a single over-long chunk alone on an empty
line, drops a trailing whitespace chunk, and returns the line content
(without the indent, which the caller prepends) and the remaining chunks. -/
def buildLine (width : Nat) (first : Bool) (chunks : List (List Char)) :
    Option (List Char) × List (List Char) :=
  let avail := width - (if first then 0 else 3)
  let chunks1 := dropLead first chunks
  let q := popLong avail (fitChunks avail 0 chunks1)
  let taken := dropTrail q.1
  (if taken = [] then none else some taken.flatten, q.2)

/-- dropLead removes at most one chunk, and any removed chunk is droppable
whitespace. -/
theorem dropLead_spec (first : Bool) (chunks : List (List Char)) :
    ∃ d1, chunks = d1 ++ dropLead first chunks ∧ d1.length ≤ 1 ∧
      ∀ c ∈ d1, c.all isUniWS = true := by
  unfold dropLead
  split
  · rename_i hcond
    cases chunks with
    | nil => exact ⟨[], by simp⟩
    | cons a l =>
      have h2 : headUniWS (a :: l) = true := by
        rw [Bool.and_eq_true] at hcond
        exact hcond.2
      have h3 : a.all isUniWS = true := by
        simp only [headUniWS] at h2
        exact h2
      refine ⟨[a], by simp, by simp, ?_⟩
      intro c hc
      simp only [List.mem_singleton] at hc
      subst hc
      exact h3
  · exact ⟨[], by simp⟩

/-- popLong preserves the concatenation of the two halves. -/
theorem popLong_append (avail : Nat) (p : List (List Char) × List (List Char)) :
    (popLong avail p).1 ++ (popLong avail p).2 = p.1 ++ p.2 := by
  unfold popLong
  split
  · rename_i c rest2 heq
    split
    · rename_i hcond
      rw [hcond.1, heq]
      simp
    · rfl
  · rfl

/-- dropTrail removes at most one chunk from the end, and any removed chunk
is droppable whitespace. -/
theorem dropTrail_spec (l : List (List Char)) :
    ∃ d2, l = dropTrail l ++ d2 ∧ d2.length ≤ 1 ∧
      ∀ c ∈ d2, c.all isUniWS = true := by
  unfold dropTrail
  split
  · rename_i hcond
    rcases hl : l.getLast? with _ | c
    · simp [lastUniWS, hl] at hcond
    · refine ⟨[c], ?_, by simp, ?_⟩
      · have := List.dropLast_append_getLast? c hl
        simpa using this.symm
      · intro x hx
        simp only [List.mem_singleton] at hx
        subst hx
        simpa [lastUniWS, hl] using hcond
  · exact ⟨[], by simp⟩

/-- The pieces of one buildLine step: the input chunks decompose as a
dropped leading whitespace chunk, the line's chunks, a dropped trailing
whitespace chunk, and the remaining chunks; the emitted content is the
flattened line. -/
theorem buildLine_decomp (width : Nat) (first : Bool) (chunks : List (List Char)) :
    ∃ d1 T d2,
      chunks = d1 ++ T ++ d2 ++ (buildLine width first chunks).2 ∧
      d1.length ≤ 1 ∧ d2.length ≤ 1 ∧
      (∀ c ∈ d1, c.all isUniWS = true) ∧ (∀ c ∈ d2, c.all isUniWS = true) ∧
      (buildLine width first chunks).1 = (if T = [] then none else some T.flatten) := by
  obtain ⟨d1, hd1, hd1len, hd1ws⟩ := dropLead_spec first chunks
  set avail := width - (if first then 0 else 3) with havail
  set q := popLong avail (fitChunks avail 0 (dropLead first chunks)) with hq
  obtain ⟨d2, hd2, hd2len, hd2ws⟩ := dropTrail_spec q.1
  refine ⟨d1, dropTrail q.1, d2, ?_, hd1len, hd2len, hd1ws, hd2ws, ?_⟩
  · have h1 : dropTrail q.1 ++ d2 ++ q.2 = dropLead first chunks := by
      rw [← hd2, hq, popLong_append, fitChunks_append]
    calc chunks = d1 ++ dropLead first chunks := hd1
      _ = d1 ++ (dropTrail q.1 ++ d2 ++ q.2) := by rw [h1]
      _ = d1 ++ dropTrail q.1 ++ d2 ++ (buildLine width first chunks).2 := by
          show _ = _ ++ _ ++ _ ++ (buildLine width first chunks).2
          have : (buildLine width first chunks).2 = q.2 := by
            simp [buildLine, ← havail, ← hq]
          rw [this]
          simp [List.append_assoc]
  · show (buildLine width first chunks).1 = _
    simp [buildLine, ← havail, ← hq]

/-- Projection of buildLine onto the remaining chunks. -/
theorem buildLine_snd (width : Nat) (first : Bool) (chunks : List (List Char)) :
    (buildLine width first chunks).2 =
      (popLong (width - (if first then 0 else 3))
        (fitChunks (width - (if first then 0 else 3)) 0 (dropLead first chunks))).2 := rfl

/-- popLong does not lengthen the remaining chunks. -/
theorem popLong_rest_le (avail : Nat) (p : List (List Char) × List (List Char)) :
    (popLong avail p).2.length ≤ p.2.length := by
  unfold popLong
  split
  · rename_i c rest2 heq
    split
    · rw [heq]; simp
    · exact Nat.le_refl _
  · exact Nat.le_refl _

/-- If dropLead leaves the chunks unchanged-length, it did not drop;
otherwise it dropped exactly the head. -/
theorem dropLead_cases (first : Bool) (chunks : List (List Char)) :
    dropLead first chunks = chunks ∨ dropLead first chunks = chunks.tail := by
  unfold dropLead
  split
  · exact Or.inr rfl
  · exact Or.inl rfl

/-- buildLine consumes at least one chunk from a nonempty list. -/
theorem buildLine_rest_lt (width : Nat) (first : Bool) (chunks : List (List Char))
    (hne : chunks ≠ []) :
    (buildLine width first chunks).2.length < chunks.length := by
  set avail := width - (if first then 0 else 3) with havail
  have hsnd : (buildLine width first chunks).2 =
      (popLong avail (fitChunks avail 0 (dropLead first chunks))).2 := rfl
  rcases dropLead_cases first chunks with hdrop | hdrop
  · rcases hch : chunks with _ | ⟨a, l⟩
    · exact absurd hch hne
    · subst hch
      by_cases hp1 : (fitChunks avail 0 (a :: l)).1 = []
      · have hbig : avail < 0 + a.length := fitChunks_nil_head avail 0 a l hp1
        have hp2 : (fitChunks avail 0 (a :: l)).2 = a :: l := by
          have happ := fitChunks_append avail (a :: l) 0
          rw [hp1] at happ
          simpa using happ
        have hbig2 : avail < a.length := by omega
        have hrest : (popLong avail (fitChunks avail 0 (a :: l))).2 = l := by
          simp [popLong, hp2, hp1, hbig2]
        rw [hsnd, hdrop, hrest]
        simp
      · have happ := fitChunks_append avail (a :: l) 0
        have hlen : (fitChunks avail 0 (a :: l)).1.length +
            (fitChunks avail 0 (a :: l)).2.length = (a :: l).length := by
          rw [← List.length_append, happ]
        have h1 : 1 ≤ (fitChunks avail 0 (a :: l)).1.length :=
          Nat.one_le_iff_ne_zero.mpr
            (fun h => hp1 (List.eq_nil_of_length_eq_zero h))
        have hpl := popLong_rest_le avail (fitChunks avail 0 (a :: l))
        rw [hsnd, hdrop]
        simp only [List.length_cons] at hlen ⊢
        omega
  · have htail : chunks.tail.length < chunks.length := by
      cases chunks with
      | nil => exact absurd rfl hne
      | cons a l => simp
    have hfit : (fitChunks avail 0 (dropLead first chunks)).2.length ≤
        (dropLead first chunks).length := by
      have happ := fitChunks_append avail (dropLead first chunks) 0
      conv_rhs => rw [← happ]
      simp
    have hpl := popLong_rest_le avail (fitChunks avail 0 (dropLead first chunks))
    rw [hsnd]
    rw [hdrop] at hfit hpl ⊢
    omega

/-- textwrap._wrap_chunks with the source's options, returning the line
contents without the subsequent_indent marker (the caller prepends the
marker to every line after the first emitted one, exactly as _wrap_chunks
prepends indent to each line it appends). -/
def wrapGo (width : Nat) (first : Bool) (chunks : List (List Char)) : List (List Char) :=
  match hc : chunks with
  | [] => []
  | _ :: _ =>
    let p := buildLine width first chunks
    match p.1 with
    | some content => content :: wrapGo width false p.2
    | none => wrapGo width first p.2
  termination_by chunks.length
  decreasing_by
  · exact hc ▸ buildLine_rest_lt width first chunks (by rw [hc]; simp)
  · exact hc ▸ buildLine_rest_lt width first chunks (by rw [hc]; simp)

/-- Fuel-indexed form of wrapGo with the same body, structurally recursive
on the fuel so that the kernel can evaluate it; with fuel at least the
chunk count it coincides with wrapGo (wrapGoF_eq). -/
def wrapGoF (fuel : Nat) (width : Nat) (first : Bool) (chunks : List (List Char)) :
    List (List Char) :=
  match fuel with
  | 0 => []
  | fuel + 1 =>
    match chunks with
    | [] => []
    | _ :: _ =>
      let p := buildLine width first chunks
      match p.1 with
      | some content => content :: wrapGoF fuel width false p.2
      | none => wrapGoF fuel width first p.2

/-- With enough fuel, wrapGoF is wrapGo. -/
theorem wrapGoF_eq : ∀ (fuel : Nat) (chunks : List (List Char)) (width : Nat) (first : Bool),
    chunks.length ≤ fuel → wrapGoF fuel width first chunks = wrapGo width first chunks := by
  intro fuel
  induction fuel with
  | zero =>
    intro chunks width first h
    have hc : chunks = [] := List.eq_nil_of_length_eq_zero (Nat.le_zero.mp h)
    subst hc
    simp [wrapGoF, wrapGo.eq_def]
  | succ fuel ih =>
    intro chunks width first h
    cases chunks with
    | nil => simp [wrapGoF, wrapGo.eq_def]
    | cons a l =>
      rw [wrapGo.eq_def]
      simp only [wrapGoF]
      have hrest : (buildLine width first (a :: l)).2.length ≤ fuel := by
        have := buildLine_rest_lt width first (a :: l) (by simp)
        simp only [List.length_cons] at this h
        omega
      rcases hp : (buildLine width first (a :: l)).1 with _ | content
      · simp only [ih _ _ _ hrest]
      · simp only [ih _ _ _ hrest]

/-- The subsequent_indent string the running program passes to
textwrap.wrap.  llmbot.py declares "# coding: unicode_escape" on line 2,
so the three UTF-8 bytes of the "…" literal are each decoded as a
separate character: the indent is the 3-character string
U+00E2 U+0080 U+00A6, not a single ellipsis. -/
def indentMarker : List Char := ['â', '\u0080', '¦']

/-- Prepend the subsequent_indent marker to every emitted line after the
first, exactly as _wrap_chunks prepends indent to each appended line. -/
def markIndents : List (List Char) → List (List Char)
  | [] => []
  | l :: ls => l :: ls.map (fun x => indentMarker ++ x)

/-- Line contents of textwrap.wrap(msg, width, subsequent_indent="…",
break_long_words=False) before the continuation marker is prepended. -/
def wrapContentsL (msg : List Char) (width : Nat) : List (List Char) :=
  wrapGoF (splitChunks (munge msg)).length width true (splitChunks (munge msg))

/-- wrapContentsL agrees with the recursion wrapGo on the chunks. -/
theorem wrapContentsL_eq (msg : List Char) (width : Nat) :
    wrapContentsL msg width = wrapGo width true (splitGo [] (munge msg)) := by
  unfold wrapContentsL
  rw [wrapGoF_eq _ _ _ _ (Nat.le_refl _), splitChunks_eq]

/-- Model of textwrap.wrap(msg, width=width, subsequent_indent="…",
break_long_words=False) as called by post_outbound_msg. -/
def wrapText (msg : String) (width : Nat) : List String :=
  (markIndents (wrapContentsL msg.data width)).map (fun l => String.mk l)

/-- The fragments' texts with the continuation marker removed: used to
state properties about the non-header, non-marker text of fragments. -/
def wrapContents (msg : String) (width : Nat) : List String :=
  (wrapContentsL msg.data width).map (fun l => String.mk l)

/-- optionalHeader from llmbot.py: the numbering header "[n/d] " when the
reply spans more than one message, and the empty string otherwise. -/
def optionalHeader (n : Nat) (d : Nat) : String :=
  if d > 1 then "[" ++ toString n ++ "/" ++ toString d ++ "] " else ""

/-- meshtastic.protobuf.mesh_pb2.Constants.DATA_PAYLOAD_LEN. -/
def DATA_PAYLOAD_LEN : Nat := 237

/-- SAFETY_MARGIN from post_outbound_msg. -/
def SAFETY_MARGIN : Nat := 8

/-- MAX_HEADER_SIZE = len(optionalHeader(99, 99)) from post_outbound_msg. -/
def MAX_HEADER_SIZE : Nat := (optionalHeader 99 99).length

/-- payld_sz = Constants.DATA_PAYLOAD_LEN - MAX_HEADER_SIZE - SAFETY_MARGIN
from post_outbound_msg. -/
def payld_sz : Nat := DATA_PAYLOAD_LEN - MAX_HEADER_SIZE - SAFETY_MARGIN

/-- The outbound payloads built by post_outbound_msg's loop: fragment n
(0-based) of the wrapped reply gets optionalHeader(n+1, total) prepended. -/
def fragPayloads (msg : String) (width : Nat) : List String :=
  let msg_frags := wrapText msg width
  msg_frags.enum.map (fun p => optionalHeader (p.1 + 1) msg_frags.length ++ p.2)


/-- Result dictionary of ollama's client.generate as used by llmbot.py:
the done flag, the response text, and the opaque context (a list of token
ids in ollama, modelled as a list of naturals). -/
structure LlmResponse where
  done : Bool
  response : String
  context : List Nat
deriving DecidableEq

/-- An entry of the outbound queue: the tuple
(dest_id, msg_payload, pkt_id) that post_outbound_msg appends. -/
structure OutFrag where
  dest_id : String
  payload : String
  pkt_id : Nat
deriving DecidableEq

/-- The mutable state of MsgBotAhsm while in the _running state, plus a
log of transmitted fragments (the calls to interface.sendText, oldest
first), which models the externally visible transmissions. -/
structure BotState where
  inbound_queue : List (String × String × Nat)
  outbound_queue : List OutFrag
  llm_context : String → Option (List Nat)
  sent : List OutFrag

/-- accept_inbound_msg: appendleft the (sender, msg, pkt_id) triple onto
the inbound deque (the left end is the list head; pop takes the right
end, so the deque is FIFO). -/
def accept_inbound_msg (s : BotState) (sender msg : String) (pkt_id : Nat) : BotState :=
  { s with inbound_queue := (sender, msg, pkt_id) :: s.inbound_queue }

/-- The fixed fallback reply substituted when the LLM raises. -/
def FALLBACK_REPLY : String := "LLM exception.  Brain fail.  Beep, boop."

/-- context_for_this_sender = self.llm_context.get(sender, None). -/
def context_for_this_sender (ctx : String → Option (List Nat)) (sender : String) :
    Option (List Nat) := ctx sender

/-- generate_reply from llmbot.py.  The outcome of the external
self.llm_client.generate call is passed in as an Except value: an error
models any exception raised by the call (timeout, transport error,
malformed response).  On success with done=true the per-sender context is
overwritten; on a not-done response or on any exception it is unchanged,
and on an exception the fixed fallback string is returned. -/
def generate_reply (ctx : String → Option (List Nat)) (sender : String)
    (llmResult : Except Unit LlmResponse) : String × (String → Option (List Nat)) :=
  match llmResult with
  | Except.ok r =>
    (r.response, if r.done then fun s => if s = sender then some r.context else ctx s else ctx)
  | Except.error _ => (FALLBACK_REPLY, ctx)

/-- post_outbound_msg from llmbot.py: wrap the reply with
textwrap.wrap(msg, width=payld_sz, subsequent_indent="…",
break_long_words=False), prepend optionalHeader(n+1, len(msg_frags)) to
fragment n, and appendleft each onto the outbound deque in order.  The
SEND_NOW event it then posts is modelled by the caller invoking
send_any_outbound_msg before any further timer tick. -/
def post_outbound_msg (s : BotState) (dest_id msg : String) (pkt_id : Nat) : BotState :=
  let msg_frags := wrapText msg payld_sz
  msg_frags.enum.foldl
    (fun st p =>
      { st with outbound_queue :=
          ⟨dest_id, optionalHeader (p.1 + 1) msg_frags.length ++ p.2, pkt_id⟩ ::
            st.outbound_queue })
    s

/-- process_inbound_msg from llmbot.py: pop the oldest inbound message,
generate a reply (the external LLM outcome is a parameter), and post the
reply to the outbound queue.  The source unconditionally pops; it is only
invoked on MSG_RECEIVED, which accompanies each enqueue, so the queue is
nonempty there; an empty queue is mapped to a no-op. -/
def process_inbound_msg (s : BotState) (llmResult : Except Unit LlmResponse) : BotState :=
  match s.inbound_queue.getLast? with
  | none => s
  | some (sender, _msg, pkt_id) =>
    let s1 : BotState := { s with inbound_queue := s.inbound_queue.dropLast }
    let r := generate_reply s1.llm_context sender llmResult
    post_outbound_msg { s1 with llm_context := r.2 } sender r.1 pkt_id

/-- send_any_outbound_msg from llmbot.py: if the outbound deque is
nonempty, pop one fragment (the oldest) and transmit it via
interface.sendText; otherwise do nothing.  This is the handler for both
the periodic TEN_SEC timer event and the SEND_NOW event. -/
def send_any_outbound_msg (s : BotState) : BotState :=
  match s.outbound_queue.getLast? with
  | some frag =>
    { s with outbound_queue := s.outbound_queue.dropLast, sent := s.sent ++ [frag] }
  | none => s

/-- A run of k periodic timer ticks with no other events: each tick fires
the TEN_SEC handler send_any_outbound_msg once. -/
def ticks : Nat → BotState → BotState
  | 0, s => s
  | k + 1, s => ticks k (send_any_outbound_msg s)

/-- The outbound-queue entries one call of post_outbound_msg creates, in
fragmentation order. -/
def outboundEntries (dest_id msg : String) (pkt_id : Nat) : List OutFrag :=
  (fragPayloads msg payld_sz).map (fun p => ⟨dest_id, p, pkt_id⟩)

/-- Whether the first list is a prefix of the second (Boolean helper for
the substring test of Python's in operator). -/
def listStartsWith : List Char → List Char → Bool
  | [], _ => true
  | _ :: _, [] => false
  | a :: as, b :: bs => a == b && listStartsWith as bs

/-- Python's substring operator sub in s: some contiguous occurrence. -/
def containsSub (needle : List Char) : List Char → Bool
  | [] => needle.isEmpty
  | c :: rest => listStartsWith needle (c :: rest) || containsSub needle rest

/-- A received meshtastic packet as testbot.py reads it: the decoded
portnum and text, and the optional hop and RF-statistics keys.  The RF
values are floats in the source; only their rendered text matters here, so
they are modelled as the strings they format to. -/
structure RxMsg where
  portnum : String
  text : String
  hopStart : Option Int
  hopLimit : Option Int
  rxSnr : Option String
  rxRssi : Option String

/-- The two module-level counters of testbot.py. -/
structure Counters where
  rcvd_text_msg_count : Nat
  rcvd_command_count : Nat
deriving DecidableEq

/-- is_text_message from testbot.py. -/
def is_text_message (m : RxMsg) : Bool := m.portnum == "TEXT_MESSAGE_APP"

/-- is_in_message from testbot.py: substr in msg["decoded"]["text"].lower()
(lowercasing modelled at ASCII precision). -/
def is_in_message (substr : String) (m : RxMsg) : Bool :=
  containsSub substr.data (m.text.data.map Char.toLower)

/-- get_reply_to_test_command from testbot.py. -/
def get_reply_to_test_command (m : RxMsg) : String :=
  match m.hopStart, m.hopLimit with
  | some hs, some hl =>
    let intermediate_node_count : Int := hs - hl
    if intermediate_node_count = 0 then
      match m.rxSnr, m.rxRssi with
      | some snr, some rssi => "I heard you!\nSNR: " ++ snr ++ ", RSSI: " ++ rssi
      | _, _ => "I heard you, but didn't get any RF stats to share."
    else
      "I heard you!\nthrough " ++ toString intermediate_node_count ++ " nodes."
  | _, _ => "I heard you, but can't count the hops your message took."

/-- get_diagnostic_counts_message from testbot.py. -/
def get_diagnostic_counts_message (c : Counters) : String :=
  toString c.rcvd_command_count ++ " commands / " ++
    toString c.rcvd_text_msg_count ++ " messages"

/-- help_reply from testbot.py. -/
def help_reply : String := "Put the word \"test\" in your message and see what happens."

/-- process_received_message from testbot.py: returns the updated counters
and the reply text (the empty string means no reply is sent). -/
def process_received_message (c : Counters) (m : RxMsg) : Counters × String :=
  if is_text_message m then
    let c1 : Counters := { c with rcvd_text_msg_count := c.rcvd_text_msg_count + 1 }
    if is_in_message "test" m then
      ({ c1 with rcvd_command_count := c1.rcvd_command_count + 1 },
        get_reply_to_test_command m)
    else if is_in_message "counts" m then
      let c2 : Counters := { c1 with rcvd_command_count := c1.rcvd_command_count + 1 }
      (c2, get_diagnostic_counts_message c2)
    else
      (c1, help_reply)
  else
    (c, "")

/-- Transmitting from a queue that decomposes as q ++ [a] pops a (the
oldest entry) and logs it. -/
theorem send_concat (s : BotState) (q : List OutFrag) (a : OutFrag)
    (h : s.outbound_queue = q ++ [a]) :
    send_any_outbound_msg s =
      { s with outbound_queue := q, sent := s.sent ++ [a] } := by
  unfold send_any_outbound_msg
  rw [h, List.getLast?_concat]
  simp [List.dropLast_concat]

/-- Transmitting from an empty queue is a no-op. -/
theorem send_empty (s : BotState) (h : s.outbound_queue = []) :
    send_any_outbound_msg s = s := by
  unfold send_any_outbound_msg
  rw [h]
  rfl

/-- Ticks on an empty outbound queue change nothing. -/
theorem ticks_empty : ∀ (k : Nat) (s : BotState), s.outbound_queue = [] →
    ticks k s = s := by
  intro k
  induction k with
  | zero => intro s _; rfl
  | succ k ih =>
    intro s h
    show ticks k (send_any_outbound_msg s) = s
    rw [send_empty s h]
    exact ih s h

/-- Draining k entries from a queue holding the reversal of r transmits
the first k entries of r in order. -/
theorem ticks_drain : ∀ (k : Nat) (r : List OutFrag) (s : BotState),
    s.outbound_queue = r.reverse → k ≤ r.length →
    (ticks k s).sent = s.sent ++ r.take k ∧
    (ticks k s).outbound_queue = (r.drop k).reverse ∧
    (ticks k s).inbound_queue = s.inbound_queue ∧
    (ticks k s).llm_context = s.llm_context := by
  intro k
  induction k with
  | zero =>
    intro r s h _
    refine ⟨by simp [ticks], by simpa [ticks] using h, rfl, rfl⟩
  | succ k ih =>
    intro r s h hk
    cases r with
    | nil => simp at hk
    | cons a t =>
      have hs : s.outbound_queue = t.reverse ++ [a] := by simpa using h
      have hsend := send_concat s t.reverse a hs
      have hstep : ticks (k + 1) s = ticks k (send_any_outbound_msg s) := rfl
      rw [hstep, hsend]
      obtain ⟨h1, h2, h3, h4⟩ := ih t
        { s with outbound_queue := t.reverse, sent := s.sent ++ [a] }
        rfl (Nat.le_of_succ_le_succ hk)
      refine ⟨?_, ?_, ?_, ?_⟩
      · rw [h1]; simp
      · rw [h2]; simp
      · exact h3
      · exact h4

/-- Sent-count formula for any number of ticks. -/
theorem ticks_sent_length : ∀ (k : Nat) (s : BotState),
    (ticks k s).sent.length = s.sent.length + min k s.outbound_queue.length := by
  intro k
  induction k with
  | zero => intro s; simp [ticks]
  | succ k ih =>
    intro s
    rcases List.eq_nil_or_concat s.outbound_queue with hq | ⟨q0, a, hq⟩
    · show (ticks k (send_any_outbound_msg s)).sent.length = _
      rw [send_empty s hq, ih s, hq]
      simp
    · rw [List.concat_eq_append] at hq
      show (ticks k (send_any_outbound_msg s)).sent.length = _
      rw [send_concat s q0 a hq, ih _, hq]
      simp only [List.length_append, List.length_cons]
      simp [Nat.succ_min_succ]
      omega

/-- C5: across any sequence of periodic timer ticks with no new inbound
messages, each tick transmits at most one fragment: exactly the oldest
queued fragment when the outbound queue is nonempty, and nothing (the
state entirely unchanged) when it is empty; over k ticks exactly
min k (queue length) fragments are transmitted. -/
theorem C5_pacing_invariant (s : BotState) :
    (s.outbound_queue = [] → send_any_outbound_msg s = s) ∧
    (∀ f, s.outbound_queue.getLast? = some f →
      (send_any_outbound_msg s).sent = s.sent ++ [f] ∧
      (send_any_outbound_msg s).outbound_queue = s.outbound_queue.dropLast ∧
      (send_any_outbound_msg s).inbound_queue = s.inbound_queue ∧
      (send_any_outbound_msg s).llm_context = s.llm_context) ∧
    (∀ k : Nat, (ticks k s).sent.length = s.sent.length + min k s.outbound_queue.length) := by
  refine ⟨send_empty s, ?_, fun k => ticks_sent_length k s⟩
  intro f hf
  unfold send_any_outbound_msg
  rw [hf]
  exact ⟨rfl, rfl, rfl, rfl⟩

/-- Closed instance of the pacing theorem: one tick on a one-element queue
transmits exactly that fragment and empties the queue. -/
theorem C5_pacing_invariant_witness :
    (send_any_outbound_msg
        ⟨[], [⟨"usr", "hello", 5⟩], fun _ => none, []⟩).sent = [⟨"usr", "hello", 5⟩] ∧
    (send_any_outbound_msg
        ⟨[], [⟨"usr", "hello", 5⟩], fun _ => none, []⟩).outbound_queue = [] := by
  have h := (C5_pacing_invariant ⟨[], [⟨"usr", "hello", 5⟩], fun _ => none, []⟩).2.1
    ⟨"usr", "hello", 5⟩ rfl
  exact ⟨by rw [h.1]; rfl, by rw [h.2.1]; rfl⟩

/-- Folding post_outbound_msg's enqueue loop pushes the mapped entries
onto the left of the outbound deque in order. -/
theorem foldl_push (dest_id : String) (pkt_id : Nat) (n : Nat) :
    ∀ (l : List (Nat × String)) (s : BotState),
      l.foldl (fun st p =>
        { st with outbound_queue :=
            ⟨dest_id, optionalHeader (p.1 + 1) n ++ p.2, pkt_id⟩ :: st.outbound_queue }) s
      = { s with outbound_queue :=
          (l.map (fun p => (⟨dest_id, optionalHeader (p.1 + 1) n ++ p.2, pkt_id⟩ : OutFrag))).reverse
            ++ s.outbound_queue } := by
  intro l
  induction l with
  | nil => intro s; rfl
  | cons p l ih =>
    intro s
    show l.foldl _ _ = _
    rw [ih]
    simp

/-- post_outbound_msg prepends the reversed entry list to the outbound
queue and changes nothing else. -/
theorem post_outbound_msg_eq (s : BotState) (dest_id msg : String) (pkt_id : Nat) :
    post_outbound_msg s dest_id msg pkt_id =
      { s with outbound_queue :=
          (outboundEntries dest_id msg pkt_id).reverse ++ s.outbound_queue } := by
  unfold post_outbound_msg
  rw [foldl_push dest_id pkt_id (wrapText msg payld_sz).length (wrapText msg payld_sz).enum s]
  have : outboundEntries dest_id msg pkt_id =
      (wrapText msg payld_sz).enum.map
        (fun p => (⟨dest_id, optionalHeader (p.1 + 1) (wrapText msg payld_sz).length ++ p.2,
          pkt_id⟩ : OutFrag)) := by
    unfold outboundEntries fragPayloads
    rw [List.map_map]
    rfl
  rw [this]

/-- The entry list has one entry per fragment. -/
theorem outboundEntries_length (dest_id msg : String) (pkt_id : Nat) :
    (outboundEntries dest_id msg pkt_id).length = (wrapText msg payld_sz).length := by
  unfold outboundEntries fragPayloads
  simp

/-- C7: the fragments of one reply are enqueued in fragmentation order,
every entry tagged with the reply's destination and correlation id, and a
full drain of the queue transmits any previously queued fragments and then
this reply's fragments, in exactly insertion order. -/
theorem C7_fragment_group_order (s : BotState) (dest_id msg : String) (pkt_id : Nat) :
    (post_outbound_msg s dest_id msg pkt_id).outbound_queue
      = (outboundEntries dest_id msg pkt_id).reverse ++ s.outbound_queue ∧
    (ticks ((post_outbound_msg s dest_id msg pkt_id).outbound_queue.length)
        (post_outbound_msg s dest_id msg pkt_id)).sent
      = s.sent ++ (s.outbound_queue.reverse ++ outboundEntries dest_id msg pkt_id) ∧
    (outboundEntries dest_id msg pkt_id).map OutFrag.payload = fragPayloads msg payld_sz ∧
    (outboundEntries dest_id msg pkt_id).map OutFrag.dest_id
      = List.replicate (outboundEntries dest_id msg pkt_id).length dest_id ∧
    (outboundEntries dest_id msg pkt_id).map OutFrag.pkt_id
      = List.replicate (outboundEntries dest_id msg pkt_id).length pkt_id := by
  have hpost := post_outbound_msg_eq s dest_id msg pkt_id
  refine ⟨by rw [hpost], ?_, ?_, ?_, ?_⟩
  · set r := s.outbound_queue.reverse ++ outboundEntries dest_id msg pkt_id with hr
    have hqr : (post_outbound_msg s dest_id msg pkt_id).outbound_queue = r.reverse := by
      rw [hpost, hr]
      simp
    have hlen : (post_outbound_msg s dest_id msg pkt_id).outbound_queue.length = r.length := by
      rw [hqr, List.length_reverse]
    have hsent : (post_outbound_msg s dest_id msg pkt_id).sent = s.sent := by rw [hpost]
    have := (ticks_drain r.length r (post_outbound_msg s dest_id msg pkt_id) hqr
      (Nat.le_refl _)).1
    rw [hlen, this, hsent, List.take_length]
  · unfold outboundEntries
    rw [List.map_map]
    have hid : (OutFrag.payload ∘ fun p => (⟨dest_id, p, pkt_id⟩ : OutFrag)) = id := rfl
    rw [hid, List.map_id]
  · unfold outboundEntries; simp [List.map_map]
    exact List.map_const _ _
  · unfold outboundEntries; simp [List.map_map]
    exact List.map_const _ _

/-- C6: when the outbound queue is empty at enqueue time, the first
fragment of a multi-fragment reply is transmitted by the SEND_NOW event
posted by post_outbound_msg, i.e. before any periodic tick, and each of
the k following ticks transmits exactly the next fragment, so fragments
2..n go out one per subsequent tick. -/
theorem C6_fast_path (s : BotState) (dest_id msg : String) (pkt_id : Nat)
    (hq : s.outbound_queue = [])
    (hn : 2 ≤ (wrapText msg payld_sz).length) :
    (send_any_outbound_msg (post_outbound_msg s dest_id msg pkt_id)).sent
      = s.sent ++ (outboundEntries dest_id msg pkt_id).take 1 ∧
    (∀ k, k < (outboundEntries dest_id msg pkt_id).length →
      (ticks k (send_any_outbound_msg (post_outbound_msg s dest_id msg pkt_id))).sent
        = s.sent ++ (outboundEntries dest_id msg pkt_id).take (k + 1)) := by
  have hpost := post_outbound_msg_eq s dest_id msg pkt_id
  have hqr : (post_outbound_msg s dest_id msg pkt_id).outbound_queue
      = (outboundEntries dest_id msg pkt_id).reverse := by
    rw [hpost, hq]
    simp
  have hsent : (post_outbound_msg s dest_id msg pkt_id).sent = s.sent := by rw [hpost]
  have hlen : 1 ≤ (outboundEntries dest_id msg pkt_id).length := by
    rw [outboundEntries_length]
    omega
  constructor
  · have h1 := (ticks_drain 1 (outboundEntries dest_id msg pkt_id) _ hqr hlen).1
    have hstep : ticks 1 (post_outbound_msg s dest_id msg pkt_id)
        = send_any_outbound_msg (post_outbound_msg s dest_id msg pkt_id) := rfl
    rw [← hstep, h1, hsent]
  · intro k hk
    have h1 := (ticks_drain (k + 1) (outboundEntries dest_id msg pkt_id) _ hqr hk).1
    have hstep : ticks (k + 1) (post_outbound_msg s dest_id msg pkt_id)
        = ticks k (send_any_outbound_msg (post_outbound_msg s dest_id msg pkt_id)) := rfl
    rw [← hstep, h1, hsent]

/-- A reply that wraps into exactly two fragments at the source's width of
221 characters: 115 letters, a space, 115 letters. -/
def fastMsg : String := String.mk (List.replicate 115 'a' ++ ' ' :: List.replicate 115 'b')

/-- An empty per-sender context store. -/
def no_context : String → Option (List Nat) := fun _ => none

/-- Closed instance of the fast-path theorem on an idle bot: the first of
the two fragments of fastMsg goes out on the immediate send. -/
theorem C6_fast_path_witness :
    (send_any_outbound_msg
        (post_outbound_msg ⟨[], [], no_context, []⟩ "dst" fastMsg 9)).sent
      = (outboundEntries "dst" fastMsg 9).take 1 := by
  have h := (C6_fast_path ⟨[], [], no_context, []⟩ "dst" fastMsg 9 rfl (by decide)).1
  simpa using h

/-- Counterexample to C6 as stated: if an earlier fragment is still queued
when a two-fragment reply is enqueued, the immediate send transmits that
stale fragment, which is not a fragment of the new reply, so the new
reply's first fragment is not transmitted immediately. -/
theorem C6_fast_path_cex :
    2 ≤ (wrapText fastMsg payld_sz).length ∧
    (send_any_outbound_msg
        (post_outbound_msg ⟨[], [⟨"old", "stale", 7⟩], no_context, []⟩ "dst" fastMsg 9)).sent
      = [⟨"old", "stale", 7⟩] ∧
    (⟨"old", "stale", 7⟩ : OutFrag) ∉ outboundEntries "dst" fastMsg 9 := by
  refine ⟨by decide, ?_, by decide⟩
  have hpost := post_outbound_msg_eq ⟨[], [⟨"old", "stale", 7⟩], no_context, []⟩ "dst" fastMsg 9
  have hq : (post_outbound_msg ⟨[], [⟨"old", "stale", 7⟩], no_context, []⟩ "dst" fastMsg 9).outbound_queue
      = (outboundEntries "dst" fastMsg 9).reverse ++ [⟨"old", "stale", 7⟩] := by
    rw [hpost]
  have hsend := send_concat _ ((outboundEntries "dst" fastMsg 9).reverse) ⟨"old", "stale", 7⟩ hq
  rw [hsend]
  rfl

/-- C8: when the inbound queue holds one message and the LLM call raises
any exception, processing that message enqueues exactly one fragment whose
payload is the fixed fallback string, addressed to the original sender
with the original packet id; the context store is unchanged, and the next
send transmits exactly that fragment. -/
theorem C8_generator_fallback (s : BotState) (sender msg : String) (pkt_id : Nat)
    (hin : s.inbound_queue = []) (hout : s.outbound_queue = []) :
    (process_inbound_msg (accept_inbound_msg s sender msg pkt_id)
        (Except.error ())).outbound_queue
      = [⟨sender, FALLBACK_REPLY, pkt_id⟩] ∧
    (process_inbound_msg (accept_inbound_msg s sender msg pkt_id)
        (Except.error ())).llm_context = s.llm_context ∧
    (process_inbound_msg (accept_inbound_msg s sender msg pkt_id)
        (Except.error ())).inbound_queue = [] ∧
    (send_any_outbound_msg (process_inbound_msg (accept_inbound_msg s sender msg pkt_id)
        (Except.error ()))).sent
      = s.sent ++ [⟨sender, FALLBACK_REPLY, pkt_id⟩] := by
  have hacc : accept_inbound_msg s sender msg pkt_id
      = { s with inbound_queue := [(sender, msg, pkt_id)] } := by
    unfold accept_inbound_msg
    rw [hin]
  have hfrag : fragPayloads FALLBACK_REPLY payld_sz = [FALLBACK_REPLY] := by decide
  have hentries : outboundEntries sender FALLBACK_REPLY pkt_id
      = [⟨sender, FALLBACK_REPLY, pkt_id⟩] := by
    unfold outboundEntries
    rw [hfrag]
    rfl
  have hproc : process_inbound_msg (accept_inbound_msg s sender msg pkt_id) (Except.error ())
      = post_outbound_msg { s with inbound_queue := [] } sender FALLBACK_REPLY pkt_id := by
    rw [hacc]
    rfl
  have hpost := post_outbound_msg_eq { s with inbound_queue := ([] : List (String × String × Nat)) }
    sender FALLBACK_REPLY pkt_id
  have hq : (process_inbound_msg (accept_inbound_msg s sender msg pkt_id)
      (Except.error ())).outbound_queue = [⟨sender, FALLBACK_REPLY, pkt_id⟩] := by
    rw [hproc, hpost, hentries, hout]
    rfl
  refine ⟨hq, ?_, ?_, ?_⟩
  · rw [hproc, hpost]
  · rw [hproc, hpost]
  · have hq2 : (process_inbound_msg (accept_inbound_msg s sender msg pkt_id)
        (Except.error ())).outbound_queue
        = [] ++ [⟨sender, FALLBACK_REPLY, pkt_id⟩] := by rw [hq]; rfl
    have hsend := send_concat _ [] ⟨sender, FALLBACK_REPLY, pkt_id⟩ hq2
    rw [hsend, hproc, hpost]

/-- Closed instance of the fallback theorem on an idle bot. -/
theorem C8_generator_fallback_witness :
    (process_inbound_msg (accept_inbound_msg ⟨[], [], no_context, []⟩ "alice" "hi there" 3)
        (Except.error ())).outbound_queue
      = [⟨"alice", FALLBACK_REPLY, 3⟩] :=
  (C8_generator_fallback ⟨[], [], no_context, []⟩ "alice" "hi there" 3 rfl rfl).1

/-- C9: the per-sender context is overwritten exactly when the generator's
response is marked done; on an exception or a not-done response the store
is unchanged; and after a done response, the prior-context argument that
the next generate call for the same sender reads
(context_for_this_sender) is exactly the context the response returned. -/
theorem C9_context_continuity (ctx : String → Option (List Nat)) (sender : String)
    (r : LlmResponse) :
    ((generate_reply ctx sender (Except.error ())).2 = ctx) ∧
    ((generate_reply ctx sender (Except.error ())).1 = FALLBACK_REPLY) ∧
    (r.done = false → (generate_reply ctx sender (Except.ok r)).2 = ctx) ∧
    (r.done = true → ∀ s2 : String,
      (generate_reply ctx sender (Except.ok r)).2 s2 =
        if s2 = sender then some r.context else ctx s2) ∧
    (r.done = true →
      context_for_this_sender (generate_reply ctx sender (Except.ok r)).2 sender
        = some r.context) := by
  refine ⟨rfl, rfl, ?_, ?_, ?_⟩
  · intro hd
    simp [generate_reply, hd]
  · intro hd s2
    simp [generate_reply, hd]
  · intro hd
    simp [generate_reply, context_for_this_sender, hd]

/-- Closed instance of the context-continuity theorem: after a done
response carrying context [1, 2, 3], the next call's prior-context
argument for that sender is [1, 2, 3]. -/
theorem C9_context_continuity_witness :
    context_for_this_sender
      (generate_reply no_context "alice" (Except.ok ⟨true, "hello", [1, 2, 3]⟩)).2 "alice"
      = some [1, 2, 3] :=
  (C9_context_continuity no_context "alice" ⟨true, "hello", [1, 2, 3]⟩).2.2.2.2 rfl

/-- One step of process_received_message preserves the counter invariant
(commands counted never exceed text messages counted). -/
theorem process_received_message_inv (c : Counters) (m : RxMsg)
    (h : c.rcvd_command_count ≤ c.rcvd_text_msg_count) :
    (process_received_message c m).1.rcvd_command_count
      ≤ (process_received_message c m).1.rcvd_text_msg_count := by
  unfold process_received_message
  split
  · split
    · simpa using Nat.succ_le_succ h
    · split
      · simpa using Nat.succ_le_succ h
      · simpa using Nat.le_succ_of_le h
  · exact h

/-- C10: starting from both counters at zero, after any sequence of
received packets the recognized-command count is at most the text-message
count, and the diagnostics message renders the command count first and the
text-message count second. -/
theorem C10_testbot_counters (msgs : List RxMsg) :
    (msgs.foldl (fun c m => (process_received_message c m).1)
        ⟨0, 0⟩).rcvd_command_count
      ≤ (msgs.foldl (fun c m => (process_received_message c m).1)
        ⟨0, 0⟩).rcvd_text_msg_count ∧
    get_diagnostic_counts_message
        (msgs.foldl (fun c m => (process_received_message c m).1) ⟨0, 0⟩)
      = toString (msgs.foldl (fun c m => (process_received_message c m).1)
            ⟨0, 0⟩).rcvd_command_count ++ " commands / " ++
        toString (msgs.foldl (fun c m => (process_received_message c m).1)
            ⟨0, 0⟩).rcvd_text_msg_count ++ " messages" := by
  constructor
  · have main : ∀ (l : List RxMsg) (c : Counters),
        c.rcvd_command_count ≤ c.rcvd_text_msg_count →
        (l.foldl (fun c m => (process_received_message c m).1) c).rcvd_command_count
          ≤ (l.foldl (fun c m => (process_received_message c m).1) c).rcvd_text_msg_count := by
      intro l
      induction l with
      | nil => intro c h; exact h
      | cons m l ih =>
        intro c h
        exact ih _ (process_received_message_inv c m h)
    exact main msgs ⟨0, 0⟩ (Nat.le_refl 0)
  · rfl

/-- Unfolding: splitGo on the empty text. -/
theorem splitGo_nil (prevRev : List Char) : splitGo prevRev [] = [] := by
  rw [splitGo.eq_def]

/-- Unfolding: splitGo takes a whitespace run when the head is whitespace. -/
theorem splitGo_ws (prevRev : List Char) (c : Char) (rest : List Char) (h : isWS c = true) :
    splitGo prevRev (c :: rest) =
      (c :: rest).takeWhile isWS ::
        splitGo (((c :: rest).takeWhile isWS).reverse ++ prevRev)
          ((c :: rest).dropWhile isWS) := by
  rw [splitGo.eq_def]
  simp [h]

/-- Unfolding: splitGo takes a word chunk via wordScan when the head is no
whitespace and the em-dash branch does not apply. -/
theorem splitGo_word (prevRev : List Char) (c : Char) (rest : List Char)
    (h1 : isWS c = false)
    (h2 : ((match prevRev with
      | a :: _ => isWordPunct a
      | [] => false) && emDashAhead (c :: rest)) = false) :
    splitGo prevRev (c :: rest) =
      (wordScan prevRev [c] rest).1 ::
        splitGo ((wordScan prevRev [c] rest).1.reverse ++ prevRev)
          (wordScan prevRev [c] rest).2 := by
  rw [splitGo.eq_def]
  simp [h1, h2]

/-- Unfolding: wrapGo on no chunks. -/
theorem wrapGo_nil (width : Nat) (first : Bool) : wrapGo width first [] = [] := by
  rw [wrapGo.eq_def]

/-- Unfolding: wrapGo emits the line content buildLine produced. -/
theorem wrapGo_cons_some (width : Nat) (first : Bool) (a : List Char)
    (l : List (List Char)) (content : List Char)
    (h : (buildLine width first (a :: l)).1 = some content) :
    wrapGo width first (a :: l) =
      content :: wrapGo width false (buildLine width first (a :: l)).2 := by
  rw [wrapGo.eq_def]
  simp only [h]

/-- Unfolding: wrapGo skips a step that produced no line. -/
theorem wrapGo_cons_none (width : Nat) (first : Bool) (a : List Char)
    (l : List (List Char))
    (h : (buildLine width first (a :: l)).1 = none) :
    wrapGo width first (a :: l) =
      wrapGo width first (buildLine width first (a :: l)).2 := by
  rw [wrapGo.eq_def]
  simp only [h]

/-- A chunk consisting solely of spaces (what a whitespace chunk of the
munged text looks like). -/
def allSpace (l : List Char) : Bool := l.all (fun c => c == ' ')

/-- A chunk free of any Python-strippable whitespace. -/
def uniFree (l : List Char) : Bool := l.all (fun c => !isUniWS c)

/-- A chunk that _wrap_chunks treats as carrying content (its strip() is
nonempty), i.e. not entirely droppable whitespace. -/
def wordish (l : List Char) : Bool := !(l.all isUniWS)

/-- The six-character whitespace class is contained in Python's
strippable whitespace. -/
theorem isWS_le_isUniWS (c : Char) (h : isWS c = true) : isUniWS c = true := by
  unfold isUniWS
  rw [h]
  rfl

/-- An all-space chunk is all strippable whitespace. -/
theorem allSpace_allUni (l : List Char) (h : allSpace l = true) : l.all isUniWS = true := by
  unfold allSpace at h
  rw [List.all_eq_true] at h ⊢
  intro x hx
  have := h x hx
  rw [beq_iff_eq] at this
  subst this
  rfl

/-- An all-space chunk is not wordish. -/
theorem allSpace_not_wordish (l : List Char) (h : allSpace l = true) : wordish l = false := by
  unfold wordish
  rw [allSpace_allUni l h]
  rfl

/-- A nonempty whitespace-free chunk is wordish. -/
theorem uniFree_wordish (l : List Char) (hne : l ≠ []) (h : uniFree l = true) :
    wordish l = true := by
  cases l with
  | nil => exact absurd rfl hne
  | cons a r =>
    cases hall : (a :: r).all isUniWS with
    | false =>
      unfold wordish
      rw [hall]
      rfl
    | true =>
      exfalso
      rw [List.all_eq_true] at hall
      have h1 := hall a (by simp)
      rw [uniFree, List.all_eq_true] at h
      have h2 := h a (by simp)
      rw [h1] at h2
      simp at h2

/-- Characters of the whitespace run chunk are whitespace. -/
theorem mem_takeWhile_pred {p : Char → Bool} : ∀ (l : List Char) (x : Char),
    x ∈ l.takeWhile p → p x = true := by
  intro l
  induction l with
  | nil => intro x hx; simp [List.takeWhile] at hx
  | cons a r ih =>
    intro x hx
    rw [List.takeWhile_cons] at hx
    by_cases hp : p a
    · rw [if_pos hp] at hx
      rcases List.mem_cons.mp hx with h | h
      · subst h; exact hp
      · exact ih x h
    · rw [if_neg hp] at hx
      simp at hx

/-- The head of a dropWhile result fails the predicate. -/
theorem dropWhile_head_not {p : Char → Bool} : ∀ (l : List Char) (c : Char) (r : List Char),
    l.dropWhile p = c :: r → p c = false := by
  intro l
  induction l with
  | nil => intro c r h; simp [List.dropWhile] at h
  | cons a t ih =>
    intro c r h
    rw [List.dropWhile_cons] at h
    by_cases hp : p a
    · rw [if_pos hp] at h
      exact ih c r h
    · rw [if_neg hp] at h
      rw [List.cons.injEq] at h
      rw [← h.1]
      exact Bool.not_eq_true _ ▸ (by simpa using hp)

/-- Tokeniser state machine for maximal non-whitespace runs: cur is the
reversed word being scanned. -/
def wordsOfGo (cur : List Char) : List Char → List (List Char)
  | [] => if cur.isEmpty then [] else [cur.reverse]
  | c :: r =>
    if isWS c then
      if cur.isEmpty then wordsOfGo [] r else cur.reverse :: wordsOfGo [] r
    else
      wordsOfGo (c :: cur) r

/-- The whitespace-delimited words of a text: its maximal runs of
non-whitespace characters, in order. -/
def wordsOf (t : List Char) : List (List Char) := wordsOfGo [] t

/-- Scanning a whitespace-free block accumulates it wholesale. -/
theorem wordsOfGo_accum : ∀ (w r cur : List Char), (∀ c ∈ w, isWS c = false) →
    wordsOfGo cur (w ++ r) = wordsOfGo (w.reverse ++ cur) r := by
  intro w
  induction w with
  | nil => intro r cur _; simp
  | cons a w ih =>
    intro r cur h
    have ha : isWS a = false := h a (by simp)
    show wordsOfGo cur (a :: (w ++ r)) = _
    rw [wordsOfGo]
    rw [ha]
    simp only [Bool.false_eq_true, if_false]
    rw [ih r (a :: cur) (fun c hc => h c (by simp [hc]))]
    simp

/-- A whitespace prefix does not change the word list. -/
theorem wordsOf_space_pre : ∀ (s r : List Char), (∀ c ∈ s, isWS c = true) →
    wordsOf (s ++ r) = wordsOf r := by
  intro s
  induction s with
  | nil => intro r _; rfl
  | cons a s ih =>
    intro r h
    show wordsOfGo [] (a :: (s ++ r)) = _
    rw [wordsOfGo, h a (by simp)]
    simp only [if_true, List.isEmpty_nil]
    exact ih r (fun c hc => h c (by simp [hc]))

/-- A maximal word prefix contributes itself as the first word. -/
theorem wordsOf_word_pre : ∀ (w r : List Char), w ≠ [] →
    (∀ c ∈ w, isWS c = false) →
    (r = [] ∨ ∃ c r2, r = c :: r2 ∧ isWS c = true) →
    wordsOf (w ++ r) = w :: wordsOf r := by
  intro w r hne hw hr
  unfold wordsOf
  rw [wordsOfGo_accum w r [] hw]
  have hrev : (w.reverse ++ []).isEmpty = false := by
    simp only [List.append_nil]
    cases w with
    | nil => exact absurd rfl hne
    | cons a t => simp
  rcases hr with hr | ⟨c, r2, hr, hc⟩
  · subst hr
    rw [wordsOfGo, if_neg (by rw [hrev]; exact Bool.false_ne_true)]
    simp [wordsOf, wordsOfGo]
  · subst hr
    rw [wordsOfGo, hc]
    simp only [if_true]
    rw [if_neg (by rw [hrev]; exact Bool.false_ne_true)]
    show _ :: wordsOfGo [] r2 = _ :: wordsOfGo [] (c :: r2)
    rw [wordsOfGo, hc]
    simp

/-- Unfolding: splitGo takes the hyphen run in the em-dash branch. -/
theorem splitGo_emdash (prevRev : List Char) (c : Char) (rest : List Char)
    (h1 : isWS c = false)
    (h2 : ((match prevRev with
      | a :: _ => isWordPunct a
      | [] => false) && emDashAhead (c :: rest)) = true) :
    splitGo prevRev (c :: rest) =
      (c :: rest).takeWhile (fun x => x == '-') ::
        splitGo (((c :: rest).takeWhile (fun x => x == '-')).reverse ++ prevRev)
          ((c :: rest).dropWhile (fun x => x == '-')) := by
  rw [splitGo.eq_def]
  simp [h1, h2]

/-- The chunks of splitGo concatenate back to the text. -/
theorem splitGo_flatten : ∀ (prevRev t : List Char), (splitGo prevRev t).flatten = t := by
  intro prevRev t
  induction prevRev, t using splitGo.induct with
  | case1 prev =>
    rw [splitGo_nil]
    rfl
  | case2 prev c rest h run ih =>
    rw [splitGo_ws prev c rest h]
    simp only [List.flatten_cons]
    rw [ih]
    exact List.takeWhile_append_dropWhile _ _
  | case3 prev c rest h1 h2 run ih =>
    rw [splitGo_emdash prev c rest (by simpa using h1) h2]
    simp only [List.flatten_cons]
    rw [ih]
    exact List.takeWhile_append_dropWhile _ _
  | case4 prev c rest h1 p h2 ih =>
    rw [splitGo_word prev c rest (by simpa using h1) (by simpa using h2)]
    simp only [List.flatten_cons]
    rw [ih]
    rw [wordScan_append]
    simp

/-- wordScan only accumulates non-whitespace characters. -/
theorem wordScan_nonws (prevRev : List Char) : ∀ (t acc : List Char),
    (∀ c ∈ acc, isWS c = false) → ∀ x ∈ (wordScan prevRev acc t).1, isWS x = false := by
  intro t
  induction t with
  | nil =>
    intro acc hacc x hx
    simp only [wordScan] at hx
    rw [List.mem_reverse] at hx
    exact hacc x hx
  | cons c rest ih =>
    intro acc hacc x hx
    simp only [wordScan] at hx
    split at hx
    · rename_i hcond
      rw [List.mem_reverse] at hx
      rcases List.mem_cons.mp hx with h | h
      · subst h
        have hc : x = '-' := by
          have := ((Bool.and_eq_true _ _).mp ((Bool.and_eq_true _ _).mp hcond).1).1
          rwa [beq_iff_eq] at this
        rw [hc]
        rfl
      · exact hacc x h
    · split at hx
      · rw [List.mem_reverse] at hx
        exact hacc x hx
      · rename_i hws
        split at hx
        · rw [List.mem_reverse] at hx
          exact hacc x hx
        · refine ih (c :: acc) ?_ x hx
          intro y hy
          rcases List.mem_cons.mp hy with h | h
          · subst h
            simpa using hws
          · exact hacc y h

/-- emDashAhead fails when the head is not a hyphen. -/
theorem emDashAhead_ne (c : Char) (r : List Char) (h : c ≠ '-') :
    emDashAhead (c :: r) = false := by
  cases r with
  | nil => rfl
  | cons d r2 =>
    simp only [emDashAhead]
    have : (c == '-') = false := by
      rw [beq_eq_false_iff_ne]
      exact h
    rw [this]
    rfl

/-- On hyphen-free input, wordScan consumes exactly the maximal leading
non-whitespace run. -/
theorem wordScan_hf (prevRev : List Char) : ∀ (rest acc : List Char),
    (∀ c ∈ rest, c ≠ '-') →
    wordScan prevRev acc rest =
      (acc.reverse ++ rest.takeWhile (fun c => !isWS c),
        rest.dropWhile (fun c => !isWS c)) := by
  intro rest
  induction rest with
  | nil =>
    intro acc _
    simp [wordScan]
  | cons c r ih =>
    intro acc hhf
    have hc : c ≠ '-' := hhf c (by simp)
    have hcb : (c == '-') = false := by
      rw [beq_eq_false_iff_ne]
      exact hc
    simp only [wordScan]
    rw [hcb]
    simp only [Bool.false_and, Bool.false_eq_true, if_false]
    by_cases hws : isWS c
    · rw [if_pos hws]
      rw [List.takeWhile_cons, List.dropWhile_cons]
      simp [hws]
    · rw [if_neg hws]
      have hem : emDashAhead (c :: r) = false := emDashAhead_ne c r hc
      rw [hem]
      simp only [Bool.and_false, Bool.false_eq_true, if_false]
      rw [ih (c :: acc) (fun x hx => hhf x (by simp [hx]))]
      rw [List.takeWhile_cons, List.dropWhile_cons]
      have : (!isWS c) = true := by simpa using hws
      simp [this]

/-- On hyphen-free text whose whitespace is plain (every whitespace
character is a space, and no exotic Unicode whitespace occurs), the
splitter produces exactly the alternation of space runs and maximal words:
filtering to the content-carrying chunks gives wordsOf, no two adjacent
chunks are both content-carrying, and every chunk is nonempty and either
all spaces or free of strippable whitespace. -/
theorem splitGo_hf : ∀ (prevRev t : List Char),
    (∀ c ∈ t, c ≠ '-') → (∀ c ∈ t, isWS c = true → c = ' ') →
    (∀ c ∈ t, isUniWS c = true → isWS c = true) →
    (splitGo prevRev t).filter (fun ch => wordish ch) = wordsOf t ∧
    List.Chain' (fun a b => wordish a = true → wordish b = true → False)
      (splitGo prevRev t) ∧
    (∀ ch ∈ splitGo prevRev t, ch ≠ [] ∧ (allSpace ch = true ∨ uniFree ch = true)) := by
  intro prevRev t
  induction prevRev, t using splitGo.induct with
  | case1 prev =>
    intro _ _ _
    rw [splitGo_nil]
    exact ⟨by simp [wordsOf, wordsOfGo], by simp, by simp⟩
  | case2 prev c rest h run ih =>
    intro hf sp tame
    have hdropsub : ∀ x ∈ (c :: rest).dropWhile isWS, x ∈ c :: rest :=
      fun x hx => (List.dropWhile_sublist _).subset hx
    obtain ⟨ih1, ih2, ih3⟩ := ih
      (fun x hx => hf x (hdropsub x hx))
      (fun x hx => sp x (hdropsub x hx))
      (fun x hx => tame x (hdropsub x hx))
    rw [splitGo_ws prev c rest h]
    have hrunsub : ∀ x ∈ (c :: rest).takeWhile isWS, x ∈ c :: rest :=
      fun x hx => (List.takeWhile_prefix _).subset hx
    have hallsp : allSpace ((c :: rest).takeWhile isWS) = true := by
      rw [allSpace, List.all_eq_true]
      intro x hx
      rw [beq_iff_eq]
      exact sp x (hrunsub x hx) (mem_takeWhile_pred _ x hx)
    have hne : (c :: rest).takeWhile isWS ≠ [] := by
      rw [List.takeWhile_cons, if_pos h]
      simp
    have hnw : wordish ((c :: rest).takeWhile isWS) = false := allSpace_not_wordish _ hallsp
    refine ⟨?_, ?_, ?_⟩
    · rw [List.filter_cons, hnw]
      simp only [Bool.false_eq_true, if_false]
      rw [ih1]
      conv_rhs => rw [← List.takeWhile_append_dropWhile isWS (c :: rest)]
      rw [wordsOf_space_pre _ _ (fun x hx => mem_takeWhile_pred _ x hx)]
    · rw [List.chain'_cons']
      refine ⟨?_, ih2⟩
      intro b _ hw1 _
      rw [hnw] at hw1
      exact Bool.false_ne_true hw1
    · intro ch hch
      rcases List.mem_cons.mp hch with hch | hch
      · subst hch
        exact ⟨hne, Or.inl hallsp⟩
      · exact ih3 ch hch
  | case3 prev c rest h1 h2 run ih =>
    intro hf _ _
    exfalso
    obtain ⟨r, hr⟩ := emDashAhead_head (c :: rest) (((Bool.and_eq_true _ _).mp h2).2)
    rw [List.cons.injEq] at hr
    exact hf c (by simp) hr.1
  | case4 prev c rest h1 p h2 ih =>
    intro hf sp tame
    have hcb : isWS c = false := by simpa using h1
    have hfr : ∀ x ∈ rest, x ≠ '-' := fun x hx => hf x (by simp [hx])
    have hws := wordScan_hf prev rest [c] hfr
    have hp1 : (wordScan prev [c] rest).1 = (c :: rest).takeWhile (fun x => !isWS x) := by
      rw [hws, List.takeWhile_cons]
      have : (!isWS c) = true := by simp [hcb]
      rw [if_pos this]
      simp
    have hp2 : (wordScan prev [c] rest).2 = (c :: rest).dropWhile (fun x => !isWS x) := by
      rw [hws, List.dropWhile_cons]
      have : (!isWS c) = true := by simp [hcb]
      rw [if_pos this]
    have hdropsub : ∀ x ∈ (c :: rest).dropWhile (fun x => !isWS x), x ∈ c :: rest :=
      fun x hx => (List.dropWhile_sublist _).subset hx
    obtain ⟨ih1, ih2, ih3⟩ := ih
      (by rw [hp2]; exact fun x hx => hf x (hdropsub x hx))
      (by rw [hp2]; exact fun x hx => sp x (hdropsub x hx))
      (by rw [hp2]; exact fun x hx => tame x (hdropsub x hx))
    rw [splitGo_word prev c rest hcb (by simpa using h2)]
    have hwsub : ∀ x ∈ (c :: rest).takeWhile (fun x => !isWS x), x ∈ c :: rest :=
      fun x hx => (List.takeWhile_prefix _).subset hx
    have hwne : (c :: rest).takeWhile (fun x => !isWS x) ≠ [] := by
      rw [List.takeWhile_cons, if_pos (by simp [hcb])]
      simp
    have hwnws : ∀ x ∈ (c :: rest).takeWhile (fun x => !isWS x), isWS x = false := by
      intro x hx
      have := mem_takeWhile_pred _ x hx
      simpa using this
    have hwuf : uniFree ((c :: rest).takeWhile (fun x => !isWS x)) = true := by
      rw [uniFree, List.all_eq_true]
      intro x hx
      have h6 : isWS x = false := hwnws x hx
      cases hu : isUniWS x with
      | false => rfl
      | true =>
        have := tame x (hwsub x hx) hu
        rw [h6] at this
        exact absurd this Bool.false_ne_true
    have hww : wordish ((c :: rest).takeWhile (fun x => !isWS x)) = true :=
      uniFree_wordish _ hwne hwuf
    have hdropshape : (c :: rest).dropWhile (fun x => !isWS x) = [] ∨
        ∃ d r2, (c :: rest).dropWhile (fun x => !isWS x) = d :: r2 ∧ isWS d = true := by
      rcases hd : (c :: rest).dropWhile (fun x => !isWS x) with _ | ⟨d, r2⟩
      · exact Or.inl rfl
      · refine Or.inr ⟨d, r2, rfl, ?_⟩
        have := dropWhile_head_not (c :: rest) d r2 hd
        simpa using this
    refine ⟨?_, ?_, ?_⟩
    · rw [hp1, hp2] at ih1 ⊢
      rw [List.filter_cons, hww]
      simp only [if_true]
      rw [ih1]
      conv_rhs => rw [← List.takeWhile_append_dropWhile (fun x => !isWS x) (c :: rest)]
      rw [wordsOf_word_pre _ _ hwne hwnws hdropshape]
    · rw [hp1, hp2] at ih2 ⊢
      rw [List.chain'_cons']
      refine ⟨?_, ih2⟩
      intro b hb _ hw2
      rcases hdropshape with hd | ⟨d, r2, hd, hdws⟩
      · rw [hd, splitGo_nil] at hb
        simp at hb
      · rw [hd, splitGo_ws _ d r2 hdws] at hb
        simp only [List.head?_cons, Option.mem_some_iff] at hb
        subst hb
        have hrunsub2 : ∀ x ∈ (d :: r2).takeWhile isWS, x ∈ c :: rest := by
          intro x hx
          apply hdropsub
          rw [hd]
          exact (List.takeWhile_prefix _).subset hx
        have hallsp2 : allSpace ((d :: r2).takeWhile isWS) = true := by
          rw [allSpace, List.all_eq_true]
          intro x hx
          rw [beq_iff_eq]
          exact sp x (hrunsub2 x hx) (mem_takeWhile_pred _ x hx)
        rw [allSpace_not_wordish _ hallsp2] at hw2
        exact Bool.false_ne_true hw2
    · intro ch hch
      rcases List.mem_cons.mp hch with hch | hch
      · subst hch
        rw [hp1]
        exact ⟨hwne, Or.inr hwuf⟩
      · rw [hp2] at ih3
        rw [hp2] at hch
        exact ih3 ch hch

/-- Remove every Python-strippable whitespace character. -/
def stripUni (t : List Char) : List Char := t.filter (fun c => !isUniWS c)

/-- stripUni distributes over concatenation. -/
theorem stripUni_append (a b : List Char) : stripUni (a ++ b) = stripUni a ++ stripUni b := by
  simp [stripUni]

/-- stripUni of all-whitespace text is empty. -/
theorem stripUni_allUni (l : List Char) (h : l.all isUniWS = true) : stripUni l = [] := by
  unfold stripUni
  rw [List.all_eq_true] at h
  rw [List.filter_eq_nil]
  intro a ha
  rw [h a ha]
  simp

/-- stripUni of the flattening of all-whitespace chunks is empty. -/
theorem stripUni_flatten_allUni : ∀ (d : List (List Char)),
    (∀ ch ∈ d, ch.all isUniWS = true) → stripUni d.flatten = [] := by
  intro d
  induction d with
  | nil => intro _; rfl
  | cons ch d ih =>
    intro h
    rw [List.flatten_cons, stripUni_append, stripUni_allUni ch (h ch (by simp)),
      ih (fun x hx => h x (by simp [hx]))]
    rfl

/-- Every character of expandTabs output is a character of the input or a
space. -/
theorem expandTabs_mem : ∀ (t : List Char) (col : Nat) (x : Char),
    x ∈ expandTabs col t → x ∈ t ∨ x = ' ' := by
  intro t
  induction t with
  | nil => intro col x hx; simp [expandTabs] at hx
  | cons c r ih =>
    intro col x hx
    simp only [expandTabs] at hx
    split at hx
    · rcases List.mem_append.mp hx with h | h
      · exact Or.inr (List.eq_of_mem_replicate h)
      · rcases ih _ x h with h2 | h2
        · exact Or.inl (by simp [h2])
        · exact Or.inr h2
    · split at hx
      · rcases List.mem_cons.mp hx with h | h
        · exact Or.inl (by simp [h])
        · rcases ih _ x h with h2 | h2
          · exact Or.inl (by simp [h2])
          · exact Or.inr h2
      · rcases List.mem_cons.mp hx with h | h
        · exact Or.inl (by simp [h])
        · rcases ih _ x h with h2 | h2
          · exact Or.inl (by simp [h2])
          · exact Or.inr h2

/-- stripUni is invariant under tab expansion. -/
theorem stripUni_expandTabs : ∀ (t : List Char) (col : Nat),
    stripUni (expandTabs col t) = stripUni t := by
  intro t
  induction t with
  | nil => intro col; rfl
  | cons c r ih =>
    intro col
    simp only [expandTabs]
    split
    · rename_i htab
      rw [stripUni_append, ih]
      have hrep : stripUni (List.replicate (8 - col % 8) ' ') = [] := by
        apply stripUni_allUni
        rw [List.all_eq_true]
        intro a ha
        rw [List.eq_of_mem_replicate ha]
        rfl
      rw [hrep]
      have hc : c = '\t' := by rwa [beq_iff_eq] at htab
      subst hc
      show stripUni r = stripUni ('\t' :: r)
      unfold stripUni
      rw [List.filter_cons]
      have htb : (!isUniWS '\t') = false := by decide
      rw [htb]
      simp
    · rename_i htab
      split
      · rename_i hnl
        show stripUni (c :: expandTabs 0 r) = stripUni (c :: r)
        unfold stripUni
        rw [List.filter_cons, List.filter_cons]
        have := ih 0
        unfold stripUni at this
        rw [this]
      · show stripUni (c :: expandTabs (col + 1) r) = stripUni (c :: r)
        unfold stripUni
        rw [List.filter_cons, List.filter_cons]
        have := ih (col + 1)
        unfold stripUni at this
        rw [this]

/-- The whitespace-to-space translation does not change stripUni. -/
theorem stripUni_translate : ∀ (l : List Char),
    stripUni (l.map (fun c => if isWS c then ' ' else c)) = stripUni l := by
  intro l
  induction l with
  | nil => rfl
  | cons c r ih =>
    rw [List.map_cons]
    unfold stripUni at ih ⊢
    rw [List.filter_cons, List.filter_cons]
    by_cases hws : isWS c
    · rw [if_pos hws]
      have h1 : (!isUniWS ' ') = false := rfl
      have h2 : (!isUniWS c) = false := by
        rw [isWS_le_isUniWS c hws]
        rfl
      rw [h1, h2]
      simp only [Bool.false_eq_true, if_false]
      exact ih
    · rw [if_neg hws]
      rw [ih]

/-- Whitespace normalisation preserves the non-whitespace content. -/
theorem stripUni_munge (t : List Char) : stripUni (munge t) = stripUni t := by
  unfold munge
  rw [stripUni_translate, stripUni_expandTabs]

/-- In munged text every whitespace-class character is a space. -/
theorem munge_spaced (t : List Char) : ∀ c ∈ munge t, isWS c = true → c = ' ' := by
  intro c hc hws
  unfold munge at hc
  obtain ⟨x, _, hfx⟩ := List.mem_map.mp hc
  by_cases hx : isWS x
  · rw [if_pos hx] at hfx
    exact hfx.symm
  · rw [if_neg hx] at hfx
    subst hfx
    exact absurd hws (by simpa using hx)

/-- Whitespace normalisation preserves tameness (no exotic Unicode
whitespace). -/
theorem munge_tame (t : List Char) (h : ∀ c ∈ t, isUniWS c = true → isWS c = true) :
    ∀ c ∈ munge t, isUniWS c = true → isWS c = true := by
  intro c hc hu
  unfold munge at hc
  obtain ⟨x, hx, hfx⟩ := List.mem_map.mp hc
  by_cases hxw : isWS x
  · rw [if_pos hxw] at hfx
    rw [← hfx]
    rfl
  · rw [if_neg hxw] at hfx
    subst hfx
    rcases expandTabs_mem t 0 x hx with h2 | h2
    · exact h x h2 hu
    · subst h2
      rfl

/-- Whitespace normalisation preserves hyphen-freeness. -/
theorem munge_hyphenFree (t : List Char) (h : ∀ c ∈ t, c ≠ '-') :
    ∀ c ∈ munge t, c ≠ '-' := by
  intro c hc
  unfold munge at hc
  obtain ⟨x, hx, hfx⟩ := List.mem_map.mp hc
  by_cases hxw : isWS x
  · rw [if_pos hxw] at hfx
    subst hfx
    intro he
    exact absurd he (by decide)
  · rw [if_neg hxw] at hfx
    subst hfx
    rcases expandTabs_mem t 0 x hx with h2 | h2
    · exact h x h2
    · subst h2
      intro he
      exact absurd he (by decide)

/-- All-space chunks consist of whitespace characters. -/
theorem allSpace_isWS (l : List Char) (h : allSpace l = true) : ∀ x ∈ l, isWS x = true := by
  intro x hx
  rw [allSpace, List.all_eq_true] at h
  have := h x hx
  rw [beq_iff_eq] at this
  subst this
  rfl

/-- Whitespace-free chunks have no whitespace-class characters. -/
theorem uniFree_nonws (l : List Char) (h : uniFree l = true) : ∀ x ∈ l, isWS x = false := by
  intro x hx
  rw [uniFree, List.all_eq_true] at h
  have h1 := h x hx
  cases hw : isWS x with
  | false => rfl
  | true =>
    rw [isWS_le_isUniWS x hw] at h1
    exact absurd h1 (by simp)

/-- An all-whitespace chunk is not wordish. -/
theorem allUni_not_wordish (l : List Char) (h : l.all isUniWS = true) : wordish l = false := by
  unfold wordish
  rw [h]
  rfl

/-- The words of the flattening of a well-formed chunk list are exactly
its content-carrying chunks: words never straddle a chunk boundary. -/
theorem wordsOf_flatten : ∀ (T : List (List Char)),
    (∀ ch ∈ T, ch ≠ [] ∧ (allSpace ch = true ∨ uniFree ch = true)) →
    List.Chain' (fun a b => wordish a = true → wordish b = true → False) T →
    wordsOf T.flatten = T.filter (fun ch => wordish ch) := by
  intro T
  induction T with
  | nil => intro _ _; rfl
  | cons ch T ih =>
    intro hgood hchain
    obtain ⟨hrel, hchainT⟩ := List.chain'_cons'.mp hchain
    have hch := hgood ch (by simp)
    have hT : ∀ x ∈ T, x ≠ [] ∧ (allSpace x = true ∨ uniFree x = true) :=
      fun x hx => hgood x (by simp [hx])
    rcases hch.2 with hsp | huf
    · rw [List.flatten_cons, wordsOf_space_pre ch _ (allSpace_isWS ch hsp),
        ih hT hchainT, List.filter_cons, allSpace_not_wordish ch hsp]
      simp
    · have hww := uniFree_wordish ch hch.1 huf
      have hshape : T.flatten = [] ∨ ∃ d r2, T.flatten = d :: r2 ∧ isWS d = true := by
        cases T with
        | nil => exact Or.inl rfl
        | cons b T2 =>
          have hb := hgood b (by simp)
          have hbrel : wordish b = false := by
            cases hwb : wordish b with
            | false => rfl
            | true =>
              exfalso
              exact hrel b rfl hww hwb
          have hbsp : allSpace b = true := by
            rcases hb.2 with h | h
            · exact h
            · exfalso
              rw [uniFree_wordish b hb.1 h] at hbrel
              exact Bool.noConfusion hbrel
          rw [List.flatten_cons]
          cases hbb : b with
          | nil => exact absurd hbb hb.1
          | cons d r2 =>
            refine Or.inr ⟨d, r2 ++ T2.flatten, by simp, ?_⟩
            exact allSpace_isWS b hbsp d (by simp [hbb])
      rw [List.flatten_cons,
        wordsOf_word_pre ch _ hch.1 (uniFree_nonws ch huf) hshape,
        ih hT hchainT, List.filter_cons, hww]
      simp

/-- Wrapping loses only droppable whitespace: the non-whitespace content
of the concatenated line contents equals that of the chunks. -/
theorem wrapGo_strip (width : Nat) : ∀ (first : Bool) (chunks : List (List Char)),
    stripUni (wrapGo width first chunks).flatten = stripUni chunks.flatten := by
  intro first chunks
  induction first, chunks using wrapGo.induct width with
  | case1 first =>
    rw [wrapGo_nil]
  | case2 first head tail content p hsome ih =>
    obtain ⟨d1, T, d2, hdec, _, _, hd1u, hd2u, hline⟩ := buildLine_decomp width first (head :: tail)
    rw [wrapGo_cons_some _ _ _ _ _ hsome]
    rw [List.flatten_cons, stripUni_append, ih]
    have hT : T ≠ [] ∧ content = T.flatten := by
      rw [hsome] at hline
      by_cases hTe : T = []
      · rw [if_pos hTe] at hline
        exact absurd hline (by simp)
      · rw [if_neg hTe] at hline
        exact ⟨hTe, by injection hline⟩
    conv_rhs => rw [hdec]
    rw [List.flatten_append, List.flatten_append, List.flatten_append,
      stripUni_append, stripUni_append, stripUni_append,
      stripUni_flatten_allUni d1 hd1u, stripUni_flatten_allUni d2 hd2u, hT.2]
    simp
  | case3 first head tail p hnone ih =>
    obtain ⟨d1, T, d2, hdec, _, _, hd1u, hd2u, hline⟩ := buildLine_decomp width first (head :: tail)
    rw [wrapGo_cons_none _ _ _ _ hnone]
    rw [ih]
    have hT : T = [] := by
      rw [hnone] at hline
      by_cases hTe : T = []
      · exact hTe
      · rw [if_neg hTe] at hline
        exact absurd hline.symm (by simp)
    conv_rhs => rw [hdec]
    rw [List.flatten_append, List.flatten_append, List.flatten_append,
      stripUni_append, stripUni_append, stripUni_append,
      stripUni_flatten_allUni d1 hd1u, stripUni_flatten_allUni d2 hd2u, hT]
    have hsimp : ([] : List Char) ++ stripUni ([] : List (List Char)).flatten ++ [] ++
        stripUni (buildLine width first (head :: tail)).2.flatten
        = stripUni (buildLine width first (head :: tail)).2.flatten := by
      simp [stripUni]
    rw [hsimp]

/-- The underlying characters of a joined list of packed strings. -/
theorem data_join_mk : ∀ (L : List (List Char)),
    (String.join (L.map (fun l => String.mk l))).data = L.flatten := by
  have hfold : ∀ (l : List String) (acc : String),
      (l.foldl (fun r s => r ++ s) acc).data = acc.data ++ (l.map String.data).flatten := by
    intro l
    induction l with
    | nil => intro acc; simp
    | cons s l ih =>
      intro acc
      show (l.foldl (fun r s => r ++ s) (acc ++ s)).data = _
      rw [ih (acc ++ s), String.data_append]
      simp
  intro L
  show (List.foldl (fun r s => r ++ s) "" _).data = _
  rw [hfold]
  have hemp : ("" : String).data = [] := rfl
  simp only [List.map_map, hemp, List.nil_append]
  have hid : (String.data ∘ fun l => String.mk l) = id := rfl
  rw [hid, List.map_id]

/-- Remove all Python-strippable whitespace from a string. -/
def stripWhitespace (s : String) : String := String.mk (stripUni s.data)

/-- C1 (amended): concatenating the fragments' non-header text, the
continuation markers removed, reconstructs the reply up to whitespace:
both sides agree exactly after all whitespace characters are removed.
The wrapping step drops whitespace at fragment boundaries, so exact
reconstruction is impossible, but no non-whitespace character is lost,
duplicated, or reordered, for every reply and every positive budget. -/
theorem C1_roundtrip_amended (R : String) (B : Nat) (_hB : 1 ≤ B) :
    stripWhitespace (String.join (wrapContents R B)) = stripWhitespace R := by
  unfold stripWhitespace wrapContents
  rw [data_join_mk, wrapContentsL_eq, wrapGo_strip, splitGo_flatten, stripUni_munge]

/-- Closed instance of the amended round-trip property. -/
theorem C1_roundtrip_amended_witness :
    stripWhitespace (String.join (wrapContents "aa bb" 4)) = stripWhitespace "aa bb" :=
  C1_roundtrip_amended "aa bb" 4 (by decide)

/-- Counterexample to C1 as stated: for the reply "aa bb" and budget 4 the
fragments are "[1/2] aa" and "[2/2] â\u0080¦bb" (the continuation marker
is the 3-character decoding of the "…" literal under the source's
unicode_escape coding declaration); their non-header texts with the
marker removed are "aa" and "bb", whose concatenation "aabb" is not the
original reply: the boundary space is dropped. -/
theorem C1_roundtrip_cex :
    fragPayloads "aa bb" 4 = ["[1/2] aa", "[2/2] â\u0080¦bb"] ∧
    wrapContents "aa bb" 4 = ["aa", "bb"] ∧
    String.join (wrapContents "aa bb" 4) ≠ "aa bb" := by
  refine ⟨by decide, by decide, by decide⟩

/-- popLong is the identity when nothing is left over. -/
theorem popLong_snd_nil (avail : Nat) (p : List (List Char) × List (List Char))
    (h : p.2 = []) : popLong avail p = p := by
  unfold popLong
  split
  · rename_i c rest2 heq
    rw [h] at heq
    exact absurd heq (by simp)
  · rfl

/-- buildLine written out through its helper functions. -/
theorem buildLine_eq (width : Nat) (first : Bool) (chunks : List (List Char)) :
    buildLine width first chunks =
      ((if dropTrail (popLong (width - (if first then 0 else 3))
            (fitChunks (width - (if first then 0 else 3)) 0 (dropLead first chunks))).1 = []
        then none
        else some (dropTrail (popLong (width - (if first then 0 else 3))
            (fitChunks (width - (if first then 0 else 3)) 0 (dropLead first chunks))).1).flatten),
       (popLong (width - (if first then 0 else 3))
            (fitChunks (width - (if first then 0 else 3)) 0 (dropLead first chunks))).2) := rfl

/-- When the whole chunk list fits in the width and some chunk carries
content, the wrap emits exactly one line: all chunks joined, less a
trailing whitespace chunk. -/
theorem wrapGo_single (width : Nat) (chunks : List (List Char))
    (hfit : sumLens chunks ≤ width)
    (hcontent : ∃ ch ∈ chunks, ch.all isUniWS = false) :
    wrapGo width true chunks = [(dropTrail chunks).flatten] := by
  obtain ⟨ch0, hch0, hch0w⟩ := hcontent
  have hne : chunks ≠ [] := by
    intro h
    subst h
    simp at hch0
  have hdl : dropLead true chunks = chunks := by
    unfold dropLead
    simp
  have havail : width - (if (true : Bool) then 0 else 3) = width := by simp
  have hfitall : fitChunks width 0 chunks = (chunks, []) :=
    fitChunks_all width chunks 0 (by simpa using hfit)
  have hdt : dropTrail chunks ≠ [] := by
    intro hdt
    obtain ⟨d2, hd2, hd2len, hd2u⟩ := dropTrail_spec chunks
    rw [hdt] at hd2
    simp only [List.nil_append] at hd2
    rw [hd2] at hch0
    exact absurd (hd2u ch0 hch0) (by rw [hch0w]; simp)
  have hbl : buildLine width true chunks = (some (dropTrail chunks).flatten, []) := by
    rw [buildLine_eq, havail, hdl, hfitall,
      popLong_snd_nil width (chunks, []) rfl]
    simp only [if_neg hdt]
  rcases hch : chunks with _ | ⟨a, l⟩
  · exact absurd hch hne
  · subst hch
    rw [wrapGo_cons_some width true a l _ (by rw [hbl])]
    rw [show (buildLine width true (a :: l)).2 = [] from by rw [hbl]]
    rw [wrapGo_nil]

/-- With at most one fragment, the numbering header is the empty string,
so the outbound payloads are exactly the fragments. -/
theorem fragPayloads_single (msg : String) (B : Nat)
    (h : (wrapText msg B).length ≤ 1) : fragPayloads msg B = wrapText msg B := by
  have hdef : fragPayloads msg B =
      (wrapText msg B).enum.map
        (fun p => optionalHeader (p.1 + 1) (wrapText msg B).length ++ p.2) := rfl
  rcases hf : wrapText msg B with _ | ⟨f, rest⟩
  · rw [hdef, hf]
    rfl
  · rcases rest with _ | ⟨g, rest2⟩
    · rw [hdef, hf]
      rfl
    · rw [hf] at h
      simp at h

/-- C2 (amended): a reply whose whitespace-normalised text fits within the
budget and which contains at least one non-whitespace character wraps into
exactly one fragment, and that fragment carries no numbering header; in
general a header is only added when the fragment count exceeds one.  (The
empty reply, or an all-whitespace reply, produces no fragment at all.) -/
theorem C2_single_fragment (msg : String) (B : Nat) (_hB : 1 ≤ B) :
    (((munge msg.data).length ≤ B → (∃ c ∈ msg.data, isUniWS c = false) →
      (wrapText msg B).length = 1 ∧ fragPayloads msg B = wrapText msg B)) ∧
    ((wrapText msg B).length ≤ 1 → fragPayloads msg B = wrapText msg B) := by
  refine ⟨?_, fragPayloads_single msg B⟩
  intro hfit hchar
  have hsum : sumLens (splitGo [] (munge msg.data)) ≤ B := by
    have h1 : (splitGo [] (munge msg.data)).flatten = munge msg.data :=
      splitGo_flatten [] (munge msg.data)
    have h2 : sumLens (splitGo [] (munge msg.data)) = (munge msg.data).length := by
      rw [sumLens, ← List.length_flatten, h1]
    omega
  have hword : ∃ ch ∈ splitGo [] (munge msg.data), ch.all isUniWS = false := by
    obtain ⟨c, hc, hcu⟩ := hchar
    have hcs : c ∈ stripUni msg.data := by
      unfold stripUni
      rw [List.mem_filter]
      exact ⟨hc, by rw [hcu]; rfl⟩
    rw [← stripUni_munge] at hcs
    have hct : c ∈ munge msg.data := by
      unfold stripUni at hcs
      exact (List.mem_filter.mp hcs).1
    have hcf : c ∈ (splitGo [] (munge msg.data)).flatten := by
      rw [splitGo_flatten]
      exact hct
    obtain ⟨ch, hch, hcch⟩ := List.mem_flatten.mp hcf
    refine ⟨ch, hch, ?_⟩
    cases hval : ch.all isUniWS with
    | false => rfl
    | true =>
      exfalso
      rw [List.all_eq_true] at hval
      have := hval c hcch
      rw [hcu] at this
      exact Bool.noConfusion this
  have hwrap : wrapGo B true (splitGo [] (munge msg.data))
      = [(dropTrail (splitGo [] (munge msg.data))).flatten] :=
    wrapGo_single B (splitGo [] (munge msg.data)) hsum hword
  have hwt : wrapText msg B
      = [String.mk (dropTrail (splitGo [] (munge msg.data))).flatten] := by
    unfold wrapText
    rw [wrapContentsL_eq, hwrap]
    rfl
  refine ⟨by rw [hwt]; rfl, ?_⟩
  exact fragPayloads_single msg B (by rw [hwt]; simp)

/-- Closed instance of the single-fragment property. -/
theorem C2_single_fragment_witness :
    (wrapText "hello world" payld_sz).length = 1 ∧
    fragPayloads "hello world" payld_sz = wrapText "hello world" payld_sz :=
  (C2_single_fragment "hello world" payld_sz (by decide)).1 (by decide) (by decide)

/-- Counterexample to C2 as stated: the empty reply fits within any budget
but fragmentation produces zero fragments, not one. -/
theorem C2_single_fragment_cex :
    ("" : String).length ≤ payld_sz ∧ fragPayloads "" payld_sz = [] :=
  ⟨by decide, by decide⟩

/-- Filtering all-whitespace chunks for content leaves nothing. -/
theorem filter_wordish_allUni (d : List (List Char))
    (h : ∀ c ∈ d, c.all isUniWS = true) : d.filter (fun ch => wordish ch) = [] := by
  rw [List.filter_eq_nil_iff]
  intro a ha
  rw [allUni_not_wordish a (h a ha)]
  simp

/-- Wrapping preserves the word list: the words of the emitted line
contents, concatenated in order, are exactly the content-carrying chunks.
No word is split across lines, lost, or duplicated. -/
theorem wrapGo_words (width : Nat) : ∀ (first : Bool) (chunks : List (List Char)),
    (∀ ch ∈ chunks, ch ≠ [] ∧ (allSpace ch = true ∨ uniFree ch = true)) →
    List.Chain' (fun a b => wordish a = true → wordish b = true → False) chunks →
    ((wrapGo width first chunks).map wordsOf).flatten
      = chunks.filter (fun ch => wordish ch) := by
  intro first chunks
  induction first, chunks using wrapGo.induct width with
  | case1 first =>
    intro _ _
    rw [wrapGo_nil]
    rfl
  | case2 first head tail content p hsome ih =>
    intro hgood hchain
    obtain ⟨d1, T, d2, hdec, _, _, hd1u, hd2u, hline⟩ :=
      buildLine_decomp width first (head :: tail)
    have hT : T ≠ [] ∧ content = T.flatten := by
      rw [hsome] at hline
      by_cases hTe : T = []
      · rw [if_pos hTe] at hline
        exact absurd hline (by simp)
      · rw [if_neg hTe] at hline
        exact ⟨hTe, by injection hline⟩
    have hmemsub : ∀ x ∈ (buildLine width first (head :: tail)).2, x ∈ head :: tail := by
      intro x hx
      rw [hdec]
      simp [hx]
    have hTsub : ∀ x ∈ T, x ∈ head :: tail := by
      intro x hx
      rw [hdec]
      simp [hx]
    have hchain2 := hchain
    rw [hdec] at hchain2
    obtain ⟨h1a, hchrest, _⟩ := List.chain'_append.mp hchain2
    obtain ⟨h1b, _, _⟩ := List.chain'_append.mp h1a
    obtain ⟨_, hchT, _⟩ := List.chain'_append.mp h1b
    rw [wrapGo_cons_some _ _ _ _ _ hsome]
    rw [List.map_cons, List.flatten_cons]
    rw [ih (fun x hx => hgood x (hmemsub x hx)) hchrest]
    rw [hT.2, wordsOf_flatten T (fun x hx => hgood x (hTsub x hx)) hchT]
    conv_rhs => rw [hdec]
    rw [List.filter_append, List.filter_append, List.filter_append]
    rw [filter_wordish_allUni d1 hd1u, filter_wordish_allUni d2 hd2u]
    simp
  | case3 first head tail p hnone ih =>
    intro hgood hchain
    obtain ⟨d1, T, d2, hdec, _, _, hd1u, hd2u, hline⟩ :=
      buildLine_decomp width first (head :: tail)
    have hT : T = [] := by
      rw [hnone] at hline
      by_cases hTe : T = []
      · exact hTe
      · rw [if_neg hTe] at hline
        exact absurd hline.symm (by simp)
    have hmemsub : ∀ x ∈ (buildLine width first (head :: tail)).2, x ∈ head :: tail := by
      intro x hx
      rw [hdec]
      simp [hx]
    have hchain2 := hchain
    rw [hdec] at hchain2
    obtain ⟨_, hchrest, _⟩ := List.chain'_append.mp hchain2
    rw [wrapGo_cons_none _ _ _ _ hnone]
    rw [ih (fun x hx => hgood x (hmemsub x hx)) hchrest]
    conv_rhs => rw [hdec]
    rw [List.filter_append, List.filter_append, List.filter_append]
    rw [filter_wordish_allUni d1 hd1u, filter_wordish_allUni d2 hd2u, hT]
    simp

/-- Every chunk the greedy pass takes fits within the available width. -/
theorem fitChunks_mem_le (avail : Nat) : ∀ (l : List (List Char)) (cur : Nat),
    ∀ x ∈ (fitChunks avail cur l).1, x.length ≤ avail := by
  intro l
  induction l with
  | nil => intro cur x hx; simp [fitChunks] at hx
  | cons c rest ih =>
    intro cur x hx
    simp only [fitChunks] at hx
    split at hx
    · rename_i hfit
      rcases List.mem_cons.mp hx with h | h
      · subst h
        omega
      · exact ih _ x h
    · simp at hx

/-- popLong either does nothing or, when the greedy pass took nothing and
the head chunk exceeds the width, moves exactly that head chunk onto the
line. -/
theorem popLong_cases (avail : Nat) (p : List (List Char) × List (List Char)) :
    popLong avail p = p ∨
      (p.1 = [] ∧ ∃ y rest2, p.2 = y :: rest2 ∧ avail < y.length ∧
        popLong avail p = ([y], rest2)) := by
  unfold popLong
  split
  · rename_i y rest2 heq
    split
    · rename_i hcond
      refine Or.inr ⟨hcond.1, y, rest2, heq, hcond.2, ?_⟩
      rw [hcond.1]
      rfl
    · exact Or.inl rfl
  · exact Or.inl rfl

/-- The content of an emitted line fits in the width left after the
indent, provided every whitespace-free chunk fits in width - 3. -/
theorem buildLine_content_le (width : Nat) (first : Bool) (chunks : List (List Char))
    (content : List Char)
    (hgood : ∀ ch ∈ chunks, ch ≠ [] ∧ (allSpace ch = true ∨ uniFree ch = true))
    (hbound : ∀ ch ∈ chunks, uniFree ch = true → ch.length ≤ width - 3)
    (hsome : (buildLine width first chunks).1 = some content) :
    content.length ≤ width - (if first then 0 else 3) := by
  rw [buildLine_eq] at hsome
  simp only at hsome
  by_cases hdt : dropTrail (popLong (width - (if first then 0 else 3))
      (fitChunks (width - (if first then 0 else 3)) 0 (dropLead first chunks))).1 = []
  · rw [if_pos hdt] at hsome
    exact absurd hsome (by simp)
  · rw [if_neg hdt] at hsome
    have hcontent : content = (dropTrail (popLong (width - (if first then 0 else 3))
        (fitChunks (width - (if first then 0 else 3)) 0 (dropLead first chunks))).1).flatten := by
      injection hsome with h
      exact h.symm
    have hlen : content.length = sumLens (dropTrail (popLong (width - (if first then 0 else 3))
        (fitChunks (width - (if first then 0 else 3)) 0 (dropLead first chunks))).1) := by
      rw [hcontent, sumLens, List.length_flatten]
    rcases popLong_cases (width - (if first then 0 else 3))
        (fitChunks (width - (if first then 0 else 3)) 0 (dropLead first chunks)) with
      hq | ⟨hp1, y, rest2, hp2, hylong, hq⟩
    · rw [hq] at hlen hdt
      obtain ⟨d2, hd2, _, _⟩ := dropTrail_spec
        (fitChunks (width - (if first then 0 else 3)) 0 (dropLead first chunks)).1
      have hsum1 : sumLens (fitChunks (width - (if first then 0 else 3)) 0
          (dropLead first chunks)).1
          = sumLens (dropTrail (fitChunks (width - (if first then 0 else 3)) 0
            (dropLead first chunks)).1) + sumLens d2 := by
        conv_lhs => rw [hd2]
        rw [sumLens, List.map_append, List.sum_append]
        rfl
      have hfsum := fitChunks_sum (width - (if first then 0 else 3))
        (dropLead first chunks) 0 (Nat.zero_le _)
      omega
    · exfalso
      have hymem : y ∈ chunks := by
        have happ := fitChunks_append (width - (if first then 0 else 3))
          (dropLead first chunks) 0
        rw [hp1] at happ
        simp only [List.nil_append] at happ
        have hy : y ∈ dropLead first chunks := by
          rw [← happ, hp2]
          simp
        rcases dropLead_cases first chunks with h | h
        · rwa [h] at hy
        · rw [h] at hy
          exact List.mem_of_mem_tail hy
      rcases (hgood y hymem).2 with hsp | huf
      · apply hdt
        rw [hq]
        unfold dropTrail
        have hlu : lastUniWS [y] = true := by
          unfold lastUniWS
          simp only [List.getLast?_singleton]
          exact allSpace_allUni y hsp
        rw [if_pos hlu]
        rfl
      · have hb := hbound y hymem huf
        have hav : width - 3 ≤ width - (if first then 0 else 3) := by
          split <;> omega
        omega

/-- Every line wrapGo emits fits: the first within the current available
width, later lines within width - 3 (they receive the 3-character
indent). -/
theorem wrapGo_lines_le (width : Nat) : ∀ (first : Bool) (chunks : List (List Char)),
    (∀ ch ∈ chunks, ch ≠ [] ∧ (allSpace ch = true ∨ uniFree ch = true)) →
    (∀ ch ∈ chunks, uniFree ch = true → ch.length ≤ width - 3) →
    wrapGo width first chunks = [] ∨
      ∃ c0 ls, wrapGo width first chunks = c0 :: ls ∧
        c0.length ≤ width - (if first then 0 else 3) ∧
        ∀ l ∈ ls, l.length ≤ width - 3 := by
  intro first chunks
  induction first, chunks using wrapGo.induct width with
  | case1 first =>
    intro _ _
    exact Or.inl (wrapGo_nil width first)
  | case2 first head tail content p hsome ih =>
    intro hgood hbound
    obtain ⟨d1, T, d2, hdec, _, _, _, _, _⟩ := buildLine_decomp width first (head :: tail)
    have hmemsub : ∀ x ∈ (buildLine width first (head :: tail)).2, x ∈ head :: tail := by
      intro x hx
      rw [hdec]
      simp [hx]
    have hc0 := buildLine_content_le width first (head :: tail) content hgood hbound hsome
    refine Or.inr ⟨content, wrapGo width false (buildLine width first (head :: tail)).2,
      wrapGo_cons_some _ _ _ _ _ hsome, hc0, ?_⟩
    intro l hl
    rcases ih (fun x hx => hgood x (hmemsub x hx)) (fun x hx => hbound x (hmemsub x hx)) with
      hnil | ⟨c0', ls', heq, hb0, hbl⟩
    · rw [hnil] at hl
      simp at hl
    · rw [heq] at hl
      rcases List.mem_cons.mp hl with h | h
      · subst h
        simpa using hb0
      · exact hbl l h
  | case3 first head tail p hnone ih =>
    intro hgood hbound
    obtain ⟨d1, T, d2, hdec, _, _, _, _, _⟩ := buildLine_decomp width first (head :: tail)
    have hmemsub : ∀ x ∈ (buildLine width first (head :: tail)).2, x ∈ head :: tail := by
      intro x hx
      rw [hdec]
      simp [hx]
    rw [wrapGo_cons_none _ _ _ _ hnone]
    exact ih (fun x hx => hgood x (hmemsub x hx)) (fun x hx => hbound x (hmemsub x hx))

/-- A whitespace-free chunk longer than the width is either placed alone
as this line's content or left untouched among the remaining chunks. -/
theorem buildLine_long (width : Nat) (first : Bool) (chunks : List (List Char))
    (ch : List Char) (hmem : ch ∈ chunks) (hne : ch ≠ []) (huf : uniFree ch = true)
    (hlong : width < ch.length) :
    (buildLine width first chunks).1 = some ch ∨ ch ∈ (buildLine width first chunks).2 := by
  have havail : width - (if first then 0 else 3) ≤ width := by split <;> omega
  have hchu : ch.all isUniWS = false := by
    cases hval : ch.all isUniWS with
    | false => rfl
    | true =>
      exfalso
      have hw := uniFree_wordish ch hne huf
      rw [allUni_not_wordish ch hval] at hw
      exact Bool.noConfusion hw
  have hmem1 : ch ∈ dropLead first chunks := by
    unfold dropLead
    split
    · rename_i hcond
      cases chunks with
      | nil => simp at hmem
      | cons a l =>
        rcases List.mem_cons.mp hmem with h | h
        · exfalso
          subst h
          have h2 : headUniWS (ch :: l) = true := ((Bool.and_eq_true _ _).mp hcond).2
          simp only [headUniWS] at h2
          rw [h2] at hchu
          exact Bool.noConfusion hchu
        · exact h
    · exact hmem
  have happ := fitChunks_append (width - (if first then 0 else 3)) (dropLead first chunks) 0
  have hnot1 : ch ∉ (fitChunks (width - (if first then 0 else 3)) 0 (dropLead first chunks)).1 := by
    intro hch1
    have := fitChunks_mem_le (width - (if first then 0 else 3)) (dropLead first chunks) 0 ch hch1
    omega
  have hmem2 : ch ∈ (fitChunks (width - (if first then 0 else 3)) 0 (dropLead first chunks)).2 := by
    have := List.mem_append.mp (happ ▸ hmem1)
    rcases this with h | h
    · exact absurd h hnot1
    · exact h
  rw [buildLine_eq]
  simp only
  rcases popLong_cases (width - (if first then 0 else 3))
      (fitChunks (width - (if first then 0 else 3)) 0 (dropLead first chunks)) with
    hq | ⟨hp1, y, rest2, hp2, hylong, hq⟩
  · rw [hq]
    exact Or.inr hmem2
  · rw [hq]
    rw [hp2] at hmem2
    rcases List.mem_cons.mp hmem2 with h | h
    · subst h
      left
      have hdt : dropTrail [ch] = [ch] := by
        unfold dropTrail
        have : lastUniWS [ch] = false := by
          unfold lastUniWS
          simp only [List.getLast?_singleton]
          exact hchu
        rw [this]
        simp
      rw [hdt]
      rw [if_neg (by simp)]
      simp
    · exact Or.inr h

/-- A whitespace-free chunk longer than the width ends up alone as one of
the emitted line contents. -/
theorem wrapGo_long (width : Nat) : ∀ (first : Bool) (chunks : List (List Char))
    (ch : List Char), ch ∈ chunks → ch ≠ [] → uniFree ch = true →
    width < ch.length → ch ∈ wrapGo width first chunks := by
  intro first chunks
  induction first, chunks using wrapGo.induct width with
  | case1 first =>
    intro ch hmem _ _ _
    simp at hmem
  | case2 first head tail content p hsome ih =>
    intro ch hmem hne huf hlong
    rcases buildLine_long width first (head :: tail) ch hmem hne huf hlong with h | h
    · rw [hsome] at h
      injection h with h
      rw [wrapGo_cons_some _ _ _ _ _ hsome, ← h]
      simp
    · rw [wrapGo_cons_some _ _ _ _ _ hsome]
      exact List.mem_cons_of_mem _ (ih ch h hne huf hlong)
  | case3 first head tail p hnone ih =>
    intro ch hmem hne huf hlong
    rcases buildLine_long width first (head :: tail) ch hmem hne huf hlong with h | h
    · rw [hnone] at h
      exact absurd h.symm (by simp)
    · rw [wrapGo_cons_none _ _ _ _ hnone]
      exact ih ch h hne huf hlong

/-- C4 (amended): for a hyphen-free reply with no exotic Unicode
whitespace, the words of the fragments' texts (continuation markers
removed), concatenated in fragment order, are exactly the words of the
whitespace-normalised reply, so no fragment boundary falls inside a word;
and a word longer than the budget is placed alone, untruncated, as the
entire text of its own fragment.  (With break_on_hyphens at its default,
hyphenated words may be split at a hyphen, and an over-long word is never
truncated, so its fragment exceeds the budget.) -/
theorem C4_word_handling (R : String) (B : Nat) (_hB : 1 ≤ B)
    (hhf : ∀ c ∈ R.data, c ≠ '-')
    (htame : ∀ c ∈ R.data, isUniWS c = true → isWS c = true) :
    ((wrapContentsL R.data B).map wordsOf).flatten = wordsOf (munge R.data) ∧
    (∀ w ∈ wordsOf (munge R.data), B < w.length → w ∈ wrapContentsL R.data B) := by
  obtain ⟨hfilter, hchain, hgood⟩ := splitGo_hf [] (munge R.data)
    (munge_hyphenFree R.data hhf) (munge_spaced R.data) (munge_tame R.data htame)
  constructor
  · rw [wrapContentsL_eq, wrapGo_words B true _ hgood hchain, hfilter]
  · intro w hw hlong
    rw [← hfilter] at hw
    have hwmem := (List.mem_filter.mp hw).1
    have hww := (List.mem_filter.mp hw).2
    have hg := hgood w hwmem
    have huf : uniFree w = true := by
      rcases hg.2 with hsp | huf
      · exfalso
        rw [allSpace_not_wordish w hsp] at hww
        exact Bool.noConfusion hww
      · exact huf
    rw [wrapContentsL_eq]
    exact wrapGo_long B true _ w hwmem hg.1 huf hlong

/-- Closed instance of the amended word-handling property: a 21-character
word with budget 5 appears whole, untruncated, as its own fragment. -/
theorem C4_word_handling_witness :
    ("thisisareallylongword" : String).data ∈
      wrapContentsL ("hi thisisareallylongword" : String).data 5 :=
  (C4_word_handling "hi thisisareallylongword" 5 (by decide) (by decide) (by decide)).2
    ("thisisareallylongword" : String).data (by decide) (by decide)

/-- Counterexample to C4 as stated: for "xx aa-bb ccccccc" at budget 6 the
fragments are "xx aa-", "â\u0080¦bb", "â\u0080¦ccccccc" (the continuation
marker being the 3-character decoding of the "…" literal).  The word
"aa-bb" is 5 characters, shorter than the budget, yet a fragment boundary
falls inside it (textwrap's default break_on_hyphens splits at the
hyphen); and the 7-character word "ccccccc" is longer than the budget but
is not truncated at the budget boundary: its fragment carries all 7
characters. -/
theorem C4_word_handling_cex :
    wrapText "xx aa-bb ccccccc" 6 = ["xx aa-", "â\u0080¦bb", "â\u0080¦ccccccc"] ∧
    ("aa-bb" : String).data ∈ wordsOf (munge ("xx aa-bb ccccccc" : String).data) ∧
    ("aa-bb" : String).length ≤ 6 ∧
    ("aa-bb" : String).data ∉
      ((wrapContentsL ("xx aa-bb ccccccc" : String).data 6).map wordsOf).flatten ∧
    ("ccccccc" : String).data ∈ wrapContentsL ("xx aa-bb ccccccc" : String).data 6 ∧
    6 < ("ccccccc" : String).length := by
  refine ⟨by decide, by decide, by decide, by decide, by decide, by decide⟩

def longMsg : String := "a " ++ String.mk (List.replicate 231 'b')

theorem toStringNat_le_two : ∀ m < 100, (toString m).length ≤ 2 := by decide

theorem optionalHeader_length_le (a b : Nat) (ha : a ≤ 99) (hb : b ≤ 99) :
    (optionalHeader a b).length ≤ 8 := by
  unfold optionalHeader
  split
  · have h1 : (toString a).length ≤ 2 :=
      toStringNat_le_two a (Nat.lt_of_le_of_lt ha (by decide))
    have h2 : (toString b).length ≤ 2 :=
      toStringNat_le_two b (Nat.lt_of_le_of_lt hb (by decide))
    simp only [String.length_append]
    have hl1 : ("[" : String).length = 1 := rfl
    have hl2 : ("/" : String).length = 1 := rfl
    have hl3 : ("] " : String).length = 2 := rfl
    omega
  · exact Nat.le_of_lt (by decide)

/-- Under the side conditions of splitGo_hf, if every word of the
normalised message fits in width - 3 then every emitted fragment text
(continuation marker included) fits in width. -/
theorem wrapText_fits (msg : String) (width : Nat) (hw1 : 3 ≤ width)
    (hhf : ∀ c ∈ msg.data, c ≠ '-')
    (htame : ∀ c ∈ msg.data, isUniWS c = true → isWS c = true)
    (hwords : ∀ w ∈ wordsOf (munge msg.data), w.length ≤ width - 3) :
    ∀ f ∈ wrapText msg width, f.length ≤ width := by
  obtain ⟨hfilter, hchain, hgood⟩ := splitGo_hf [] (munge msg.data)
    (munge_hyphenFree _ hhf) (munge_spaced _) (munge_tame _ htame)
  have hbound : ∀ ch ∈ splitGo [] (munge msg.data),
      uniFree ch = true → ch.length ≤ width - 3 := by
    intro ch hch huf
    have hne := (hgood ch hch).1
    have hwd := uniFree_wordish ch hne huf
    have hmem : ch ∈ (splitGo [] (munge msg.data)).filter (fun x => wordish x) :=
      List.mem_filter.mpr ⟨hch, hwd⟩
    rw [hfilter] at hmem
    exact hwords ch hmem
  rcases wrapGo_lines_le width true (splitGo [] (munge msg.data)) hgood hbound with
    hnil | ⟨c0, ls, heq, hc0, hls⟩
  · intro f hf
    unfold wrapText at hf
    rw [wrapContentsL_eq, hnil] at hf
    simp [markIndents] at hf
  · intro f hf
    unfold wrapText at hf
    rw [wrapContentsL_eq, heq] at hf
    simp only [markIndents, List.map_cons, List.mem_cons, List.map_map,
      List.mem_map, Function.comp] at hf
    rcases hf with hf0 | ⟨l, hl, hfl⟩
    · subst hf0
      have hmk : (String.mk c0).length = c0.length := rfl
      simp only [if_pos rfl] at hc0
      omega
    · subst hfl
      have hmk : (String.mk (indentMarker ++ l)).length = l.length + 3 := by
        show (indentMarker ++ l).length = l.length + 3
        simp [indentMarker]
      have := hls l hl
      omega

/-- C3: every enqueued payload is optionalHeader(i+1, n) prepended to the
i-th (0-based) fragment text, so with n ≥ 2 fragments fragment i carries
the header "[i+1/n] "; and when the reply is hyphen-free, free of exotic
Unicode whitespace, every word of the normalised reply fits in
payld_sz - 3 characters (3 being the length of the decoded
subsequent_indent string), and there are at most 99 fragments, every
payload's total length is at most DATA_PAYLOAD_LEN.  (Without the word
bound the budget claim is false: break_long_words=False lets an over-long
word exceed the budget, see the counterexample.) -/
theorem C3_header_and_budget (msg : String)
    (hhf : ∀ c ∈ msg.data, c ≠ '-')
    (htame : ∀ c ∈ msg.data, isUniWS c = true → isWS c = true)
    (hwords : ∀ w ∈ wordsOf (munge msg.data), w.length ≤ payld_sz - 3)
    (hn : (wrapText msg payld_sz).length ≤ 99) :
    (∀ i < (wrapText msg payld_sz).length, ∃ f,
        (wrapText msg payld_sz)[i]? = some f ∧
        (fragPayloads msg payld_sz)[i]? =
          some (optionalHeader (i + 1) (wrapText msg payld_sz).length ++ f)) ∧
    (∀ pl ∈ fragPayloads msg payld_sz, pl.length ≤ DATA_PAYLOAD_LEN) := by
  have hdef : fragPayloads msg payld_sz =
      (wrapText msg payld_sz).enum.map
        (fun p => optionalHeader (p.1 + 1) (wrapText msg payld_sz).length ++ p.2) := rfl
  constructor
  · intro i hi
    refine ⟨(wrapText msg payld_sz)[i], List.getElem?_eq_getElem hi, ?_⟩
    rw [hdef, List.getElem?_map, List.getElem?_enum, List.getElem?_eq_getElem hi]
    rfl
  · intro pl hpl
    rw [hdef] at hpl
    obtain ⟨⟨i, f⟩, hmem, hplq⟩ := List.mem_map.mp hpl
    have h2 := List.mem_enumFrom hmem
    have hi : i < (wrapText msg payld_sz).length := by
      have := h2.2.1
      omega
    have hfmem : f ∈ wrapText msg payld_sz := by
      have hfe := h2.2.2
      simp only [Nat.sub_zero] at hfe
      rw [hfe]
      exact List.getElem_mem _
    have hflen : f.length ≤ payld_sz :=
      wrapText_fits msg payld_sz (by decide) hhf htame hwords f hfmem
    have hhd : (optionalHeader (i + 1) (wrapText msg payld_sz).length).length ≤ 8 :=
      optionalHeader_length_le (i + 1) (wrapText msg payld_sz).length (by omega) hn
    have hpl2 : pl.length =
        (optionalHeader (i + 1) (wrapText msg payld_sz).length).length + f.length := by
      rw [← hplq]
      exact String.length_append _ _
    have hps : payld_sz = 221 := rfl
    have hDP : DATA_PAYLOAD_LEN = 237 := rfl
    omega

/-- Closed instance: the single-fragment reply "hello world" has its
fragment at index 0 with the (empty, since n = 1) header prepended, and
its payload fits the transport budget. -/
theorem C3_header_and_budget_witness :
    (∃ f, (wrapText "hello world" payld_sz)[0]? = some f ∧
        (fragPayloads "hello world" payld_sz)[0]? =
          some (optionalHeader 1 (wrapText "hello world" payld_sz).length ++ f)) ∧
    (∀ pl ∈ fragPayloads "hello world" payld_sz, pl.length ≤ DATA_PAYLOAD_LEN) :=
  ⟨(C3_header_and_budget "hello world" (by decide) (by decide) (by decide)
      (by decide)).1 0 (by decide),
   (C3_header_and_budget "hello world" (by decide) (by decide) (by decide)
      (by decide)).2⟩

/-- Counterexample to C3's unconditional budget claim: the reply
"a " followed by a 231-character word wraps into 2 fragments, and the
second payload (header "[2/2] ", the 3-character continuation marker,
then the intact 231-character word) is 240 characters, exceeding
DATA_PAYLOAD_LEN = 237, because break_long_words=False leaves the
over-long word intact. -/
theorem C3_header_budget_cex :
    2 ≤ (wrapText longMsg payld_sz).length ∧
    ∃ pl ∈ fragPayloads longMsg payld_sz, DATA_PAYLOAD_LEN < pl.length :=
  ⟨by decide, by decide⟩
